import Mathlib

set_option maxHeartbeats 1000000

/-!
Verification of the folder-synchronization program (VEEAM-Task.py).

The filesystem is modelled as a tree of named entries; `sync_folders`
below is a line-by-line shallow embedding of the Python function of the
same name, with `shutil.copy2`, `os.listdir`, `os.makedirs`,
`shutil.rmtree` and `os.remove` given their Python semantics on this
model.  Unhandled Python exceptions are modelled by the `err` field of
the result (the partial replica state and the events logged up to the
raise are kept).
-/

/-- A filesystem node: a regular file with byte content (modelled as a
string), or a directory with a list of named children.  A real directory
listing has unique, slash-free names; that invariant is `wfB` below. -/
inductive FSNode where
  | file (content : String)
  | dir (entries : List (String × FSNode))
deriving Repr

/-- Model of `os.path.join` for a directory path and an entry name. -/
def joinPath (p n : String) : String := p ++ "/" ++ n

/-- One logged line (`logging.info` / `logging.error` calls of the program). -/
inductive Event where
  | createDir (path : String)
  | copyFile (src dst : String)
  | removeFile (path : String)
  | removeDir (path : String)
  | errorLog (msg : String)
deriving Repr, DecidableEq

/-- The Python exceptions the modelled operations can raise. -/
inductive PyError where
  | notADirectory (path : String)
  | isADirectory (path : String)
  | fileNotFound (path : String)
deriving Repr, DecidableEq

/-- Look a name up in a directory listing (first occurrence). -/
def lookupEntry : List (String × FSNode) → String → Option FSNode
  | [], _ => none
  | (m, v) :: rest, n => if m = n then some v else lookupEntry rest n

/-- Write a child: replace the first entry of that name, else append. -/
def setEntry : List (String × FSNode) → String → FSNode → List (String × FSNode)
  | [], n, v => [(n, v)]
  | (m, w) :: rest, n, v => if m = n then (n, v) :: rest else (m, w) :: setEntry rest n v

/-- Remove the first entry of the given name (`os.remove` / `shutil.rmtree`). -/
def removeEntry : List (String × FSNode) → String → List (String × FSNode)
  | [], _ => []
  | (m, w) :: rest, n => if m = n then rest else (m, w) :: removeEntry rest n

/-- Model of `shutil.copy2(source_path, replica_path)` for a source file with content
`content` and basename `name`, where `res` is the listing of the replica
directory and `replicaPath` is `replica_path` (used in error payloads):
if the destination exists and is a directory, the file is copied into it
under its basename; copying onto a directory at that inner position
raises `IsADirectoryError`. -/
def copy2 (content : String) (name : String) (res : List (String × FSNode))
    (replicaPath : String) : Except PyError (List (String × FSNode)) :=
  match lookupEntry res name with
  | none => .ok (setEntry res name (.file content))
  | some (.file _) => .ok (setEntry res name (.file content))
  | some (.dir d) =>
    match lookupEntry d name with
    | some (.dir _) => .error (.isADirectory (joinPath replicaPath name))
    | _ => .ok (setEntry res name (.dir (setEntry d name (.file content))))

/-- The deletion loop of `sync_folders` (lines 93-101): iterate over the
snapshot `names` of `os.listdir(replica_folder)`, removing every entry
whose name is not in `source_files` and logging one line per removed
entry (`rmtree` logs once for a whole subtree). -/
def removeLoop (replica_folder : String) (source_files : List String) :
    List String → List (String × FSNode) →
    List (String × FSNode) × List Event × Option PyError
  | [], res => (res, [], none)
  | n :: rest, res =>
    if source_files.contains n then removeLoop replica_folder source_files rest res
    else
      match lookupEntry res n with
      | some (.dir _) =>
        let r := removeLoop replica_folder source_files rest (removeEntry res n)
        (r.1, .removeDir (joinPath replica_folder n) :: r.2.1, r.2.2)
      | some (.file _) =>
        let r := removeLoop replica_folder source_files rest (removeEntry res n)
        (r.1, .removeFile (joinPath replica_folder n) :: r.2.1, r.2.2)
      | none => (res, [], some (.fileNotFound (joinPath replica_folder n)))

/-- Result of a `sync_folders` call: the state of the node at
`replica_folder` when the call returns or raises, the log lines emitted,
and the exception propagating out of the call (if any). -/
structure SyncResult where
  replica : Option FSNode
  events : List Event
  err : Option PyError
deriving Repr

mutual

/-- The body of `sync_folders` after the source-existence check (lines
71-101 of VEEAM-Task.py): `src` is the node at `source_folder` (which
exists), `replica` the node at `replica_folder` (`none` when absent). -/
def syncCore (source_folder replica_folder : String)
    (src : FSNode) (replica : Option FSNode) : SyncResult :=
    let created : List Event :=
      match replica with
      | none => [.createDir replica_folder]
      | some _ => []
    let replica1 : FSNode :=
      match replica with
      | none => .dir []
      | some r => r
    match src with
    | .file _ =>
      { replica := some replica1, events := created,
        err := some (.notADirectory source_folder) }
    | .dir ses =>
      let r2 := syncEntries source_folder replica_folder ses replica1
      match r2.2.2 with
      | some e => { replica := some r2.1, events := created ++ r2.2.1, err := some e }
      | none =>
        match r2.1 with
        | .file _ =>
          { replica := some r2.1, events := created ++ r2.2.1,
            err := some (.notADirectory replica_folder) }
        | .dir res =>
          let d := removeLoop replica_folder (ses.map Prod.fst) (res.map Prod.fst) res
          { replica := some (.dir d.1), events := created ++ r2.2.1 ++ d.2.1,
            err := d.2.2 }

/-- The copy loop of `sync_folders` (lines 80-90): process the snapshot of
`os.listdir(source_folder)` in order; `replica1` is the current node at
`replica_folder`.  An exception aborts the loop and propagates. -/
def syncEntries (source_folder replica_folder : String)
    (entries : List (String × FSNode)) (replica1 : FSNode) :
    FSNode × List Event × Option PyError :=
  match entries with
  | [] => (replica1, [], none)
  | (name, child) :: rest =>
    let step : FSNode × List Event × Option PyError :=
      match child with
      | .dir _ =>
        match replica1 with
        | .file _ =>
          (replica1, [.createDir (joinPath replica_folder name)],
           some (.notADirectory (joinPath replica_folder name)))
        | .dir res =>
          let r := syncCore (joinPath source_folder name)
              (joinPath replica_folder name) child (lookupEntry res name)
          let newChild : FSNode :=
            match r.replica with
            | some t => t
            | none => .dir []
          (.dir (setEntry res name newChild), r.events, r.err)
      | .file content =>
        match replica1 with
        | .file _ =>
          (replica1, [], some (.notADirectory (joinPath replica_folder name)))
        | .dir res =>
          match copy2 content name res (joinPath replica_folder name) with
          | .ok res1 =>
            (.dir res1,
             [.copyFile (joinPath source_folder name) (joinPath replica_folder name)],
             none)
          | .error e => (.dir res, [], some e)
    match step.2.2 with
    | some e => (step.1, step.2.1, some e)
    | none =>
      let r := syncEntries source_folder replica_folder rest step.1
      (r.1, step.2.1 ++ r.2.1, r.2.2)

end

/-- Shallow embedding of `sync_folders(source_folder, replica_folder, log_file)`
(lines 65-101 of VEEAM-Task.py).  `source` and `replica` are the nodes
currently at the two paths (`none` when the path does not exist); the
first check (lines 67-69) logs an error and returns when the source is
missing. -/
def sync_folders (source_folder replica_folder : String)
    (source replica : Option FSNode) : SyncResult :=
  match source with
  | none =>
    { replica := replica,
      events := [.errorLog ("Source folder '" ++ source_folder ++ "' does not exist.")],
      err := none }
  | some src => syncCore source_folder replica_folder src replica

/-! ### Well-formedness and comparison predicates on trees -/

/-- A real directory entry name: nonempty is not needed, but it never
contains a path separator. -/
def goodName (n : String) : Bool := !(n.data.contains '/')

/-- The names of a listing are pairwise distinct (as every real
directory listing is). -/
def nodupKeys : List (String × FSNode) → Bool
  | [] => true
  | (n, _) :: rest => !((rest.map Prod.fst).contains n) && nodupKeys rest

mutual

/-- Well-formed tree: every directory listing has distinct, slash-free
entry names.  This holds of every tree read from a real filesystem. -/
def wfB : FSNode → Bool
  | .file _ => true
  | .dir es => nodupKeys es && wfList es

def wfList : List (String × FSNode) → Bool
  | [] => true
  | (n, c) :: rest => goodName n && wfB c && wfList rest

end

/-- A node at a missing or existing path is well-formed. -/
def wfOpt : Option FSNode → Bool
  | none => true
  | some t => wfB t

/-- Every name of `fs` also occurs in `es`. -/
def subKeys (fs es : List (String × FSNode)) : Bool :=
  fs.all (fun p => (lookupEntry es p.1).isSome)

mutual

/-- Type-compatibility of a source node with the node currently at the
matching replica path: wherever both sides have an entry of the same
name, the two entries are both files or both directories.  Replica
entries with no same-named source entry are unconstrained. -/
def compatB : FSNode → Option FSNode → Bool
  | _, none => true
  | .file _, some (.file _) => true
  | .file _, some (.dir _) => false
  | .dir _, some (.file _) => false
  | .dir es, some (.dir res) => compatList es res

def compatList : List (String × FSNode) → List (String × FSNode) → Bool
  | [], _ => true
  | (n, c) :: rest, res => compatB c (lookupEntry res n) && compatList rest res

end

mutual

/-- Structural equality of trees up to the order of directory entries:
same entry names on both sides, recursively equivalent children, equal
file contents. -/
def equivB : FSNode → FSNode → Bool
  | .file a, .file b => a == b
  | .file _, .dir _ => false
  | .dir _, .file _ => false
  | .dir es, .dir fs => equivFwd es fs && subKeys fs es

def equivFwd : List (String × FSNode) → List (String × FSNode) → Bool
  | [], _ => true
  | (n, c) :: rest, fs =>
    (match lookupEntry fs n with
     | some d => equivB c d
     | none => false) && equivFwd rest fs

end

mutual

/-- Fixed-point condition `syncedList ses res`: the replica listing `res` is a fixed point of
the copy/delete pass for the source listing `ses` — every replica name
also occurs in the source listing, and every source entry is already in
its post-sync state in the replica (for a source file whose replica
entry is a same-named directory, the post-sync state is that directory
with the file copied inside it under its own name). -/
def syncedList : List (String × FSNode) → List (String × FSNode) → Bool
  | [], _ => true
  | (n, c) :: rest, res => syncedEntry n c (lookupEntry res n) && syncedList rest res

/-- The fixed-point condition for one source entry `(n, c)` against the
replica entry currently stored under `n`. -/
def syncedEntry : String → FSNode → Option FSNode → Bool
  | _, _, none => false
  | _, .file ct, some (.file ct2) => ct == ct2
  | n, .file ct, some (.dir d) =>
    (match lookupEntry d n with
     | some (.file ct2) => ct == ct2
     | some (.dir _) => false
     | none => false)
  | _, .dir _, some (.file _) => false
  | _, .dir es, some (.dir res2) => subKeys res2 es && syncedList es res2

end

/-- The replica tree is a fixed point of one `sync_folders` pass for the
given source tree. -/
def syncedB : FSNode → FSNode → Bool
  | .file _, _ => false
  | .dir _, .file _ => false
  | .dir es, .dir res => subKeys res es && syncedList es res

/-! ### The logging setup (`setup_logging`, lines 29-46) -/

/-- Model of `os.path.dirname`, POSIX semantics: everything before the last slash,
with trailing slashes stripped unless the head is all slashes. -/
def dirname (p : String) : String :=
  let head := ((p.data.reverse.dropWhile (fun c => c ≠ '/')).reverse)
  if head.isEmpty then ""
  else if head.all (fun c => c = '/') then String.mk head
  else String.mk ((head.reverse.dropWhile (fun c => c = '/')).reverse)

/-- Model of `os.path.exists` given an oracle `ex` for the real filesystem: the
empty path never exists in Python. -/
def pathExists (ex : String → Bool) (p : String) : Bool :=
  if p = "" then false else ex p

/-- One effect of `setup_logging`, in program order. -/
inductive LogStep where
  | mkdirs (dir : String)
  | createFile (path : String)
  | basicConfig (path : String)
  | addConsoleHandler
deriving Repr, DecidableEq

/-- The steps of `setup_logging` after the directory has been ensured:
create the log file if absent, then configure the file and console
handlers. -/
def finishSetup (ex : String → Bool) (log_file : String) (pre : List LogStep) :
    List LogStep × Option PyError :=
  let mk : List LogStep := if pathExists ex log_file then [] else [.createFile log_file]
  (pre ++ mk ++ [.basicConfig log_file, .addConsoleHandler], none)

/-- Shallow embedding of `setup_logging(log_file)` (lines 29-46): returns
the effects applied, in order, and the exception raised (if any).
`os.makedirs("")` raises `FileNotFoundError`; `os.makedirs` on a
nonempty missing path and `open(log_file, "w")` under an existing
directory are modelled as succeeding. -/
def setup_logging (ex : String → Bool) (log_file : String) :
    List LogStep × Option PyError :=
  let log_dir := dirname log_file
  if pathExists ex log_dir then finishSetup ex log_file []
  else if log_dir = "" then ([], some (.fileNotFound log_dir))
  else finishSetup ex log_file [.mkdirs log_dir]

/-! ### The command-line entry point (`__main__`, lines 127-146) -/

/-- Python's `int(string)` as used by `argparse` for the `sync_interval`
argument: surrounding whitespace, an optional sign, then a nonempty run
of decimal digits (digit-group underscores are not modelled). -/
def digitsVal (cs : List Char) : Option Nat :=
  if cs.isEmpty then none
  else if cs.all Char.isDigit then
    some (cs.foldl (fun a c => 10 * a + (c.toNat - 48)) 0)
  else none

/-- Parse the `sync_interval` command-line argument. -/
def parseIntArg (s : String) : Option Int :=
  let cs := (s.data.dropWhile Char.isWhitespace).reverse.dropWhile Char.isWhitespace
  match cs.reverse with
  | '-' :: rest => (digitsVal rest).map (fun n => -(n : Int))
  | '+' :: rest => (digitsVal rest).map (fun n => (n : Int))
  | rest => (digitsVal rest).map (fun n => (n : Int))

/-- What the `__main__` block does before/at entering the scheduler. -/
inductive MainResult where
  | usageExit
  | startupFault (e : PyError)
  | entersLoop (interval : Int)
deriving Repr, DecidableEq

/-- Shallow embedding of the `__main__` block (lines 127-146): argparse
rejects a non-integer interval and exits (`usageExit`); `setup_logging`
may raise (`startupFault`); otherwise `scheduler.enter(0, ...)` plus
`scheduler.run()` start the periodic loop (`entersLoop interval`), whose
tick 0 runs `sync_folders` immediately.  No validation of the interval
value is performed anywhere on this path. -/
def pymain (ex : String → Bool) (source_arg replica_arg log_arg interval_arg : String) :
    MainResult :=
  match parseIntArg interval_arg with
  | none => .usageExit
  | some iv =>
    match (setup_logging ex log_arg).2 with
    | some e => .startupFault e
    | none => .entersLoop iv

/-! ### The scheduler loop (`periodic_sync`, lines 121-124, and `sched`) -/

/-- State of the scheduler between ticks: `clock` is the wall-clock time
when the previous tick's body (sync + `sc.enter`) finished, `nextFire`
the absolute time of the single event sitting in the `sched` queue.
Time is an integer number of seconds; `ds k` is the duration of tick
`k`'s `sync_folders` call.

`schedState` follows `sched.scheduler(time.time, time.sleep)` and
`periodic_sync`: the initial `scheduler.enter(0, ...)` at time 0 queues
tick 0 at time 0; `scheduler.run` sleeps until the queued event's time
(or runs it immediately when that time is already past), the tick body
runs for `ds k` seconds, and `periodic_sync` line 124 then calls
`sc.enter(interval, ...)`, i.e. queues the next tick at
`time.time() + interval` where `time.time()` is read after
`sync_folders` returned. -/
def schedState (ds : Nat → Nat) (iv : Int) : Nat → Int × Int
  | 0 => (0, 0)
  | k + 1 =>
    let s := schedState ds iv k
    let start := max s.1 s.2
    let done := start + (ds k : Int)
    (done, done + iv)

/-- The wall-clock time at which tick `k`'s `sync_folders` call starts. -/
def tickStart (ds : Nat → Nat) (iv : Int) (k : Nat) : Int :=
  max (schedState ds iv k).1 (schedState ds iv k).2

/-! ### Sanity examples -/

example :
    sync_folders "s" "r" (some (.dir [("a", .file "hi")])) none =
      { replica := some (.dir [("a", .file "hi")]),
        events := [.createDir "r", .copyFile "s/a" "r/a"],
        err := none } := by rfl

example :
    sync_folders "s" "r" (some (.dir [("a", .file "hi")]))
        (some (.dir [("a", .dir [])])) =
      { replica := some (.dir [("a", .dir [("a", .file "hi")])]),
        events := [.copyFile "s/a" "r/a"],
        err := none } := by rfl

example :
    sync_folders "s" "r" (some (.dir [("sub", .dir [("b", .file "yo")]), ("a", .file "hi")]))
        (some (.dir [("ghost", .file "g")])) =
      { replica := some (.dir [("sub", .dir [("b", .file "yo")]), ("a", .file "hi")]),
        events := [.createDir "r/sub", .copyFile "s/sub/b" "r/sub/b",
                   .copyFile "s/a" "r/a", .removeFile "r/ghost"],
        err := none } := by rfl

example : dirname "sync.log" = "" := by rfl
example : dirname "logs/sync.log" = "logs" := by rfl
example : dirname "/sync.log" = "/" := by rfl
example : parseIntArg " -60" = some (-60) := by rfl
example : parseIntArg "60" = some 60 := by rfl
example : parseIntArg "6x" = none := by rfl
example : equivB (.dir [("a", .file "x"), ("b", .dir [])])
    (.dir [("b", .dir []), ("a", .file "x")]) = true := by rfl

/-! ### Lemmas about directory listings -/

theorem lookupEntry_setEntry_self (l : List (String × FSNode)) (n : String) (v : FSNode) :
    lookupEntry (setEntry l n v) n = some v := by
  induction l with
  | nil => simp [setEntry, lookupEntry]
  | cons p rest ih =>
    obtain ⟨m, w⟩ := p
    by_cases h : m = n
    · simp [setEntry, lookupEntry, h]
    · simp [setEntry, lookupEntry, h, ih]

theorem lookupEntry_setEntry_ne (l : List (String × FSNode)) (n m : String) (v : FSNode)
    (h : m ≠ n) : lookupEntry (setEntry l n v) m = lookupEntry l m := by
  have h2 : ¬ (n = m) := fun hh => h hh.symm
  induction l with
  | nil => simp [setEntry, lookupEntry, h2]
  | cons p rest ih =>
    obtain ⟨k, w⟩ := p
    by_cases hk : k = n
    · have h3 : ¬ (k = m) := fun hh => h2 (hk ▸ hh)
      simp only [setEntry, if_pos hk, lookupEntry, if_neg h2, if_neg h3]
    · by_cases hkm : k = m
      · simp only [setEntry, if_neg hk, lookupEntry, if_pos hkm]
      · simp only [setEntry, if_neg hk, lookupEntry, if_neg hkm, ih]

theorem setEntry_eq_of_lookup (l : List (String × FSNode)) (n : String) (v : FSNode)
    (h : lookupEntry l n = some v) : setEntry l n v = l := by
  induction l with
  | nil => simp [lookupEntry] at h
  | cons p rest ih =>
    obtain ⟨m, w⟩ := p
    by_cases hm : m = n
    · subst hm
      simp [lookupEntry] at h
      simp [setEntry, h]
    · simp [lookupEntry, hm] at h
      simp [setEntry, hm, ih h]

theorem lookupEntry_removeEntry_ne (l : List (String × FSNode)) (n m : String)
    (h : m ≠ n) : lookupEntry (removeEntry l n) m = lookupEntry l m := by
  have h2 : ¬ (n = m) := fun hh => h hh.symm
  induction l with
  | nil => simp [removeEntry]
  | cons p rest ih =>
    obtain ⟨k, w⟩ := p
    by_cases hk : k = n
    · have h3 : ¬ (k = m) := fun hh => h2 (hk ▸ hh)
      simp only [removeEntry, if_pos hk, lookupEntry, if_neg h3]
    · by_cases hkm : k = m
      · simp only [removeEntry, if_neg hk, lookupEntry, if_pos hkm]
      · simp only [removeEntry, if_neg hk, lookupEntry, if_neg hkm, ih]

theorem lookupEntry_isSome_iff (l : List (String × FSNode)) (n : String) :
    (lookupEntry l n).isSome = true ↔ n ∈ l.map Prod.fst := by
  induction l with
  | nil => simp [lookupEntry]
  | cons p rest ih =>
    obtain ⟨m, w⟩ := p
    by_cases hm : m = n
    · simp [lookupEntry, hm]
    · simp [lookupEntry, hm, ih, Ne.symm hm]

theorem lookupEntry_eq_none_iff (l : List (String × FSNode)) (n : String) :
    lookupEntry l n = none ↔ n ∉ l.map Prod.fst := by
  rw [← lookupEntry_isSome_iff]
  cases lookupEntry l n <;> simp

theorem mem_of_lookupEntry (l : List (String × FSNode)) (n : String) (v : FSNode)
    (h : lookupEntry l n = some v) : (n, v) ∈ l := by
  induction l with
  | nil => simp [lookupEntry] at h
  | cons p rest ih =>
    obtain ⟨m, w⟩ := p
    by_cases hm : m = n
    · subst hm
      simp [lookupEntry] at h
      simp [h]
    · simp [lookupEntry, hm] at h
      exact List.mem_cons_of_mem _ (ih h)

theorem nodupKeys_iff (l : List (String × FSNode)) :
    nodupKeys l = true ↔ (l.map Prod.fst).Nodup := by
  induction l with
  | nil => simp [nodupKeys]
  | cons p rest ih =>
    obtain ⟨m, w⟩ := p
    simp [nodupKeys, ih, List.contains_iff_exists_mem_beq]

theorem lookupEntry_of_mem_nodup (l : List (String × FSNode)) (n : String) (v : FSNode)
    (hnd : nodupKeys l = true) (h : (n, v) ∈ l) : lookupEntry l n = some v := by
  induction l with
  | nil => simp at h
  | cons p rest ih =>
    obtain ⟨m, w⟩ := p
    rw [nodupKeys_iff] at hnd
    simp only [List.map_cons, List.nodup_cons] at hnd
    rcases List.mem_cons.mp h with h1 | h1
    · rw [Prod.mk.injEq] at h1
      obtain ⟨rfl, rfl⟩ := h1
      simp [lookupEntry]
    · have hm : m ≠ n := by
        intro hmn
        exact hnd.1 (by rw [hmn]; exact List.mem_map.mpr ⟨(n, v), h1, rfl⟩)
      simp only [lookupEntry, if_neg hm]
      exact ih ((nodupKeys_iff _).mpr hnd.2) h1

theorem keys_setEntry (l : List (String × FSNode)) (n : String) (v : FSNode) :
    (setEntry l n v).map Prod.fst =
      if n ∈ l.map Prod.fst then l.map Prod.fst else l.map Prod.fst ++ [n] := by
  induction l with
  | nil => simp [setEntry]
  | cons p rest ih =>
    obtain ⟨k, w⟩ := p
    by_cases hk : k = n
    · simp [setEntry, hk]
    · have hnk : ¬ (n = k) := fun hh => hk hh.symm
      simp only [setEntry, if_neg hk, List.map_cons]
      rw [ih]
      by_cases hmem : n ∈ rest.map Prod.fst <;>
        simp [hmem, List.mem_cons, hnk]

theorem nodupKeys_setEntry (l : List (String × FSNode)) (n : String) (v : FSNode)
    (h : nodupKeys l = true) : nodupKeys (setEntry l n v) = true := by
  rw [nodupKeys_iff] at h ⊢
  rw [keys_setEntry]
  by_cases hmem : n ∈ l.map Prod.fst
  · simpa [hmem] using h
  · simp only [if_neg hmem]
    rw [List.nodup_append]
    exact ⟨h, List.nodup_singleton n, by simp [hmem]⟩

theorem keys_setEntry_subset (l : List (String × FSNode)) (n : String) (v : FSNode) :
    ∀ m, m ∈ (setEntry l n v).map Prod.fst → m ∈ l.map Prod.fst ∨ m = n := by
  intro m hm
  rw [keys_setEntry] at hm
  by_cases hmem : n ∈ l.map Prod.fst
  · rw [if_pos hmem] at hm
    exact Or.inl hm
  · rw [if_neg hmem] at hm
    rcases List.mem_append.mp hm with h1 | h1
    · exact Or.inl h1
    · exact Or.inr (List.mem_singleton.mp h1)

theorem mem_setEntry (l : List (String × FSNode)) (n : String) (v : FSNode) (p : String × FSNode)
    (h : p ∈ setEntry l n v) : p ∈ l ∨ p = (n, v) := by
  induction l with
  | nil => simpa [setEntry] using h
  | cons q rest ih =>
    obtain ⟨k, w⟩ := q
    by_cases hk : k = n
    · rw [setEntry, if_pos hk] at h
      rcases List.mem_cons.mp h with h1 | h1
      · exact Or.inr h1
      · exact Or.inl (List.mem_cons_of_mem _ h1)
    · rw [setEntry, if_neg hk] at h
      rcases List.mem_cons.mp h with h1 | h1
      · exact Or.inl (h1 ▸ List.mem_cons_self _ _)
      · rcases ih h1 with h2 | h2
        · exact Or.inl (List.mem_cons_of_mem _ h2)
        · exact Or.inr h2

/-! ### Characterizations of the Boolean predicates -/

theorem wfList_iff (l : List (String × FSNode)) :
    wfList l = true ↔ ∀ p ∈ l, goodName p.1 = true ∧ wfB p.2 = true := by
  induction l with
  | nil => simp [wfList]
  | cons p rest ih =>
    obtain ⟨n, c⟩ := p
    simp [wfList, ih, Bool.and_eq_true, and_assoc]

theorem wfB_dir_iff (es : List (String × FSNode)) :
    wfB (.dir es) = true ↔ nodupKeys es = true ∧ wfList es = true := by
  simp [wfB, Bool.and_eq_true]

theorem wfList_setEntry (l : List (String × FSNode)) (n : String) (v : FSNode)
    (hl : wfList l = true) (hn : goodName n = true) (hv : wfB v = true) :
    wfList (setEntry l n v) = true := by
  rw [wfList_iff] at hl ⊢
  intro p hp
  rcases mem_setEntry l n v p hp with h1 | h1
  · exact hl p h1
  · rw [h1]
    exact ⟨hn, hv⟩

theorem wfList_filter (l : List (String × FSNode)) (P : String × FSNode → Bool)
    (hl : wfList l = true) : wfList (l.filter P) = true := by
  rw [wfList_iff] at hl ⊢
  intro p hp
  exact hl p (List.mem_of_mem_filter hp)

theorem nodupKeys_filter (l : List (String × FSNode)) (P : String × FSNode → Bool)
    (hl : nodupKeys l = true) : nodupKeys (l.filter P) = true := by
  rw [nodupKeys_iff] at hl ⊢
  exact ((List.filter_sublist l).map Prod.fst).nodup hl

theorem subKeys_iff (fs es : List (String × FSNode)) :
    subKeys fs es = true ↔ ∀ p ∈ fs, (lookupEntry es p.1).isSome = true := by
  simp [subKeys, List.all_eq_true]

theorem compatList_iff (l res : List (String × FSNode)) :
    compatList l res = true ↔ ∀ p ∈ l, compatB p.2 (lookupEntry res p.1) = true := by
  induction l with
  | nil => simp [compatList]
  | cons p rest ih =>
    obtain ⟨n, c⟩ := p
    simp [compatList, ih, Bool.and_eq_true]

theorem equivFwd_iff (l fs : List (String × FSNode)) :
    equivFwd l fs = true ↔
      ∀ p ∈ l, ∃ d, lookupEntry fs p.1 = some d ∧ equivB p.2 d = true := by
  induction l with
  | nil => simp [equivFwd]
  | cons p rest ih =>
    obtain ⟨n, c⟩ := p
    rw [equivFwd, Bool.and_eq_true, ih]
    constructor
    · rintro ⟨h1, h2⟩
      intro q hq
      rcases List.mem_cons.mp hq with rfl | hq2
      · cases hc : lookupEntry fs n with
        | none => rw [hc] at h1; simp at h1
        | some d => rw [hc] at h1; exact ⟨d, rfl, h1⟩
      · exact h2 q hq2
    · intro h
      obtain ⟨d, hd, he⟩ := h (n, c) (List.mem_cons_self _ _)
      refine ⟨?_, fun q hq => h q (List.mem_cons_of_mem _ hq)⟩
      rw [hd]
      exact he

theorem syncedList_iff (l res : List (String × FSNode)) :
    syncedList l res = true ↔
      ∀ p ∈ l, syncedEntry p.1 p.2 (lookupEntry res p.1) = true := by
  induction l with
  | nil => simp [syncedList]
  | cons p rest ih =>
    obtain ⟨n, c⟩ := p
    simp [syncedList, ih, Bool.and_eq_true]

/-! ### Path lemmas -/

theorem joinPath_data (p n : String) : (joinPath p n).data = p.data ++ ('/' :: n.data) := by
  simp [joinPath]

theorem joinPath_right_inj (p a b : String) : joinPath p a = joinPath p b ↔ a = b := by
  constructor
  · intro h
    have h2 := congrArg String.data h
    rw [joinPath_data, joinPath_data] at h2
    have h3 := List.append_cancel_left h2
    simp only [List.cons.injEq, true_and] at h3
    cases a
    cases b
    exact congrArg String.mk (by simpa using h3)
  · rintro rfl
    rfl

theorem goodName_not_mem (n : String) (h : goodName n = true) : '/' ∉ n.data := by
  intro hm
  have h2 : n.data.contains '/' = true := by
    rw [List.contains_iff_exists_mem_beq]
    exact ⟨'/', hm, by simp⟩
  rw [goodName, h2] at h
  simp at h

theorem slashSeg (A : List Char) :
    ∀ (B X Y : List Char), '/' ∉ A → '/' ∉ B →
      A ++ '/' :: X = B ++ '/' :: Y → A = B ∧ X = Y := by
  induction A with
  | nil =>
    intro B X Y _ hB h
    cases B with
    | nil => simpa using h
    | cons b B2 =>
      simp only [List.nil_append, List.cons_append, List.cons.injEq] at h
      exact absurd (h.1 ▸ List.mem_cons_self b B2) hB
  | cons a A2 ih =>
    intro B X Y hA hB h
    cases B with
    | nil =>
      simp only [List.cons_append, List.nil_append, List.cons.injEq] at h
      exact absurd (h.1 ▸ List.mem_cons_self a A2) hA
    | cons b B2 =>
      simp only [List.cons_append, List.cons.injEq] at h
      obtain ⟨rfl, h2⟩ := h
      have h3 := ih B2 X Y (fun hm => hA (List.mem_cons_of_mem _ hm))
        (fun hm => hB (List.mem_cons_of_mem _ hm)) h2
      exact ⟨by rw [h3.1], h3.2⟩

theorem joinPath_deep_inj (r a b x y : String) (ha : goodName a = true)
    (hb : goodName b = true)
    (h : joinPath (joinPath r a) x = joinPath (joinPath r b) y) : a = b ∧ x = y := by
  have h2 := congrArg String.data h
  rw [joinPath_data, joinPath_data, joinPath_data, joinPath_data] at h2
  rw [List.append_assoc, List.append_assoc] at h2
  have h3 := List.append_cancel_left h2
  simp only [List.cons_append, List.cons.injEq, true_and] at h3
  have h4 := slashSeg a.data b.data x.data y.data (goodName_not_mem a ha)
    (goodName_not_mem b hb) (by simpa using h3)
  constructor
  · cases a; cases b; exact congrArg String.mk (by simpa using h4.1)
  · cases x; cases y; exact congrArg String.mk (by simpa using h4.2)

theorem joinPath_ne_deep (r n m x : String) (hn : goodName n = true) :
    joinPath r n ≠ joinPath (joinPath r m) x := by
  intro h
  have h2 := congrArg String.data h
  rw [joinPath_data, joinPath_data, joinPath_data] at h2
  rw [List.append_assoc] at h2
  have h3 := List.append_cancel_left h2
  simp only [List.cons_append, List.cons.injEq, true_and] at h3
  exact goodName_not_mem n hn (by rw [h3]; simp)

/-! ### The deletion pass, characterized -/

/-- The log line the deletion loop emits for a removed entry. -/
def entryRemoveEvent (rf : String) (p : String × FSNode) : Event :=
  match p.2 with
  | .dir _ => .removeDir (joinPath rf p.1)
  | .file _ => .removeFile (joinPath rf p.1)

/-- The log lines of a whole deletion pass over listing `res` with
authoritative name set `S`. -/
def removeEvents (rf : String) (S : List String) (res : List (String × FSNode)) : List Event :=
  res.filterMap (fun p => if S.contains p.1 then none else some (entryRemoveEvent rf p))

theorem removeEntry_cons_ne (n m : String) (v : FSNode) (res : List (String × FSNode))
    (h : n ≠ m) : removeEntry ((n, v) :: res) m = (n, v) :: removeEntry res m := by
  simp [removeEntry, h]

theorem removeLoop_cons_notMem (rf : String) (S names : List String) :
    ∀ (res : List (String × FSNode)) (n : String) (v : FSNode), n ∉ names →
      removeLoop rf S names ((n, v) :: res) =
        ((n, v) :: (removeLoop rf S names res).1,
         (removeLoop rf S names res).2.1, (removeLoop rf S names res).2.2) := by
  induction names with
  | nil => intro res n v _; simp [removeLoop]
  | cons m ms ih =>
    intro res n v hn
    have hmn : n ≠ m := fun h => hn (h ▸ List.mem_cons_self m ms)
    have hms : n ∉ ms := fun h => hn (List.mem_cons_of_mem m h)
    by_cases hS : S.contains m
    · simp only [removeLoop, if_pos hS]
      exact ih res n v hms
    · have hlk : lookupEntry ((n, v) :: res) m = lookupEntry res m := by
        simp [lookupEntry, hmn]
      simp only [removeLoop, if_neg hS, hlk]
      cases hres : lookupEntry res m with
      | none => simp
      | some w =>
        cases w with
        | file ct =>
          rw [removeEntry_cons_ne n m v res hmn]
          rw [ih (removeEntry res m) n v hms]
        | dir d =>
          rw [removeEntry_cons_ne n m v res hmn]
          rw [ih (removeEntry res m) n v hms]

theorem removeLoop_char (rf : String) (S : List String) :
    ∀ res : List (String × FSNode), nodupKeys res = true →
      removeLoop rf S (res.map Prod.fst) res =
        (res.filter (fun p => S.contains p.1), removeEvents rf S res, none) := by
  intro res
  induction res with
  | nil => intro _; simp [removeLoop, removeEvents]
  | cons p rest ih =>
    intro hnd
    obtain ⟨n, v⟩ := p
    have hnmem : n ∉ rest.map Prod.fst := by
      rw [nodupKeys_iff] at hnd
      simp only [List.map_cons, List.nodup_cons] at hnd
      exact hnd.1
    have hndr : nodupKeys rest = true := by
      rw [nodupKeys_iff] at hnd ⊢
      simp only [List.map_cons, List.nodup_cons] at hnd
      exact hnd.2
    by_cases hS : S.contains n
    · have hfc : ((n, v) :: rest).filter (fun p => S.contains p.1) =
          (n, v) :: rest.filter (fun p => S.contains p.1) := by
        rw [List.filter_cons, if_pos]
        exact hS
      have hre : removeEvents rf S ((n, v) :: rest) = removeEvents rf S rest := by
        rw [removeEvents, List.filterMap_cons, removeEvents]
        rw [show (if S.contains (n, v).1 then none
            else some (entryRemoveEvent rf (n, v))) = none from if_pos hS]
      simp only [List.map_cons, removeLoop, if_pos hS]
      rw [removeLoop_cons_notMem rf S (rest.map Prod.fst) rest n v hnmem, ih hndr,
        hfc, hre]
    · have hfc : ((n, v) :: rest).filter (fun p => S.contains p.1) =
          rest.filter (fun p => S.contains p.1) := by
        rw [List.filter_cons, if_neg]
        simpa using hS
      have hre : removeEvents rf S ((n, v) :: rest) =
          entryRemoveEvent rf (n, v) :: removeEvents rf S rest := by
        rw [removeEvents, List.filterMap_cons, removeEvents]
        rw [show (if S.contains (n, v).1 then none
            else some (entryRemoveEvent rf (n, v))) =
          some (entryRemoveEvent rf (n, v)) from if_neg hS]
      have hlk : lookupEntry ((n, v) :: rest) n = some v := by simp [lookupEntry]
      cases v with
      | file ct =>
        simp only [List.map_cons, removeLoop, if_neg hS, hlk]
        rw [show removeEntry ((n, .file ct) :: rest) n = rest by simp [removeEntry]]
        rw [ih hndr, hfc, hre, entryRemoveEvent]
      | dir d =>
        simp only [List.map_cons, removeLoop, if_neg hS, hlk]
        rw [show removeEntry ((n, .dir d) :: rest) n = rest by simp [removeEntry]]
        rw [ih hndr, hfc, hre, entryRemoveEvent]

theorem mem_removeEvents (rf : String) (S : List String) (res : List (String × FSNode))
    (e : Event) :
    e ∈ removeEvents rf S res ↔
      ∃ p ∈ res, S.contains p.1 = false ∧ e = entryRemoveEvent rf p := by
  rw [removeEvents, List.mem_filterMap]
  constructor
  · rintro ⟨p, hp, he⟩
    by_cases hS : S.contains p.1
    · rw [if_pos hS] at he; cases he
    · rw [if_neg hS] at he
      exact ⟨p, hp, by simpa using hS, (Option.some.injEq .. ▸ he).symm⟩
  · rintro ⟨p, hp, hS, rfl⟩
    exact ⟨p, hp, by rw [hS]; simp⟩

/-! ### A nested induction principle for trees -/

theorem FSNode.nestedInd (P : FSNode → Prop) (hf : ∀ s, P (.file s))
    (hd : ∀ es, (∀ p ∈ es, P p.2) → P (.dir es)) : ∀ t, P t := by
  intro t
  refine wfB.induct P (fun l => ∀ p ∈ l, P p.2) hf hd ?_ ?_ t
  · intro p h
    simp at h
  · intro name child rest h1 h2 p hp
    rcases List.mem_cons.mp hp with rfl | hp2
    · exact h1
    · exact h2 p hp2

/-- Whether a node is a directory. -/
def FSNode.isDir : FSNode → Bool
  | .file _ => false
  | .dir _ => true

theorem strContains_iff (S : List String) (n : String) : S.contains n = true ↔ n ∈ S := by
  rw [List.contains_iff_exists_mem_beq]
  constructor
  · rintro ⟨b, hb, he⟩
    rw [show n = b from by simpa using he]
    exact hb
  · intro h
    exact ⟨n, h, by simp⟩

theorem compatB_none (c : FSNode) : compatB c none = true := by
  cases c <;> rfl

theorem lookupEntry_filter_keep (l : List (String × FSNode)) (P : String × FSNode → Bool)
    (n : String) (d : FSNode) (hnd : nodupKeys l = true)
    (hl : lookupEntry l n = some d) (hP : P (n, d) = true) :
    lookupEntry (l.filter P) n = some d := by
  have hmem : (n, d) ∈ l.filter P := List.mem_filter.mpr ⟨mem_of_lookupEntry l n d hl, hP⟩
  exact lookupEntry_of_mem_nodup _ n d (nodupKeys_filter l P hnd) hmem

/-! ### Behavior of the copy loop when the replica node is a plain file -/

theorem syncEntries_file_replica (sf rf : String) (n : String) (c : FSNode)
    (rest : List (String × FSNode)) (ct : String) :
    syncEntries sf rf ((n, c) :: rest) (.file ct) =
      (.file ct,
       (match c with
        | .dir _ => [Event.createDir (joinPath rf n)]
        | .file _ => []),
       some (.notADirectory (joinPath rf n))) := by
  cases c <;> simp [syncEntries]

theorem syncCore_file_replica (sf rf : String) (ses : List (String × FSNode)) (ct : String) :
    (syncCore sf rf (.dir ses) (some (.file ct))).replica = some (.file ct) ∧
      (syncCore sf rf (.dir ses) (some (.file ct))).err.isSome = true := by
  cases ses with
  | nil => simp [syncCore, syncEntries]
  | cons p rest =>
    obtain ⟨n, c⟩ := p
    have h := syncEntries_file_replica sf rf n c rest ct
    cases c <;> simp [syncCore, h]

/-! ### Completion and convergence of a compatible run -/

/-- A well-formed source directory, run against any well-formed,
type-compatible replica state, completes without an exception and leaves
a well-formed replica tree structurally equal to the source. -/
def SyncOk (t : FSNode) : Prop :=
  ∀ sf rf repl, wfB t = true → wfOpt repl = true → compatB t repl = true →
    FSNode.isDir t = true →
    (syncCore sf rf t repl).err = none ∧
    ∃ fin, (syncCore sf rf t repl).replica = some (.dir fin) ∧
      wfB (.dir fin) = true ∧ equivB t (.dir fin) = true

theorem syncEntries_ok (sf rf : String) :
    ∀ (l res : List (String × FSNode)),
      (∀ p ∈ l, SyncOk p.2) →
      wfList l = true → nodupKeys l = true →
      nodupKeys res = true → wfList res = true →
      compatList l res = true →
      ∃ res2, (syncEntries sf rf l (.dir res)).1 = .dir res2 ∧
        (syncEntries sf rf l (.dir res)).2.2 = none ∧
        nodupKeys res2 = true ∧ wfList res2 = true ∧
        (∀ n c, (n, c) ∈ l → ∃ d, lookupEntry res2 n = some d ∧ equivB c d = true) ∧
        (∀ m, m ∉ l.map Prod.fst → lookupEntry res2 m = lookupEntry res m) ∧
        (∀ n ct, (n, FSNode.file ct) ∈ l →
          Event.copyFile (joinPath sf n) (joinPath rf n) ∈
            (syncEntries sf rf l (.dir res)).2.1) := by
  intro l
  induction l with
  | nil =>
    intro res _ _ _ hndres hwfres _
    refine ⟨res, by simp [syncEntries], by simp [syncEntries], hndres, hwfres, ?_, ?_, ?_⟩
    · intro n c h
      simp at h
    · intro m _
      rfl
    · intro n ct h
      simp at h
  | cons p rest ih =>
    obtain ⟨n, c⟩ := p
    intro res hOk hwfl hndl hndres hwfres hcompat
    simp only [wfList, Bool.and_eq_true] at hwfl
    obtain ⟨⟨hgn, hwc⟩, hwrest⟩ := hwfl
    simp only [nodupKeys, Bool.and_eq_true, Bool.not_eq_true'] at hndl
    obtain ⟨hncont, hndrest⟩ := hndl
    have hn_notin : n ∉ rest.map Prod.fst := by
      intro h
      rw [(strContains_iff _ _).mpr h] at hncont
      cases hncont
    simp only [compatList, Bool.and_eq_true] at hcompat
    obtain ⟨hc_head, hc_rest⟩ := hcompat
    have hOkRest : ∀ p ∈ rest, SyncOk p.2 := fun p hp => hOk p (List.mem_cons_of_mem _ hp)
    cases c with
    | file ct =>
      have hcopy : copy2 ct n res (joinPath rf n) = .ok (setEntry res n (.file ct)) := by
        rcases hlk : lookupEntry res n with _ | v
        · simp [copy2, hlk]
        · cases v with
          | file ct2 => simp [copy2, hlk]
          | dir d =>
            rw [hlk] at hc_head
            simp [compatB] at hc_head
      have hnd2 : nodupKeys (setEntry res n (.file ct)) = true :=
        nodupKeys_setEntry _ _ _ hndres
      have hwf2 : wfList (setEntry res n (.file ct)) = true :=
        wfList_setEntry _ _ _ hwfres hgn rfl
      have hlk2 : lookupEntry (setEntry res n (.file ct)) n = some (.file ct) :=
        lookupEntry_setEntry_self _ _ _
      have hlkne : ∀ m, m ≠ n →
          lookupEntry (setEntry res n (.file ct)) m = lookupEntry res m :=
        fun m hm => lookupEntry_setEntry_ne res n m _ hm
      have hcompat2 : compatList rest (setEntry res n (.file ct)) = true := by
        rw [compatList_iff] at hc_rest ⊢
        intro q hq
        have hqn : q.1 ≠ n := by
          intro h
          exact hn_notin (h ▸ List.mem_map.mpr ⟨q, hq, rfl⟩)
        rw [hlkne q.1 hqn]
        exact hc_rest q hq
      obtain ⟨res2, e_node, e_err, e_nd, e_wf, e_look, e_unch, e_evt⟩ :=
        ih (setEntry res n (.file ct)) hOkRest hwrest hndrest hnd2 hwf2 hcompat2
      have hstep : syncEntries sf rf ((n, .file ct) :: rest) (.dir res) =
          ((syncEntries sf rf rest (.dir (setEntry res n (.file ct)))).1,
           [Event.copyFile (joinPath sf n) (joinPath rf n)] ++
             (syncEntries sf rf rest (.dir (setEntry res n (.file ct)))).2.1,
           (syncEntries sf rf rest (.dir (setEntry res n (.file ct)))).2.2) := by
        simp only [syncEntries, hcopy]
      refine ⟨res2, ?_, ?_, e_nd, e_wf, ?_, ?_, ?_⟩
      · rw [hstep]
        exact e_node
      · rw [hstep]
        exact e_err
      · intro m cm hm
        rcases List.mem_cons.mp hm with heq | hm2
        · rw [Prod.mk.injEq] at heq
          obtain ⟨rfl, rfl⟩ := heq
          refine ⟨.file ct, ?_, by simp [equivB]⟩
          rw [e_unch m hn_notin, hlk2]
        · exact e_look m cm hm2
      · intro m hm
        have hmn : m ≠ n := by
          intro h
          exact hm (h ▸ List.mem_cons_self _ _)
        have hmr : m ∉ rest.map Prod.fst := by
          intro h
          exact hm (List.mem_cons_of_mem _ h)
        rw [e_unch m hmr, hlkne m hmn]
      · intro m ct2 hm
        rw [hstep]
        rcases List.mem_cons.mp hm with heq | hm2
        · rw [Prod.mk.injEq] at heq
          obtain ⟨rfl, hc2⟩ := heq
          simp
        · exact List.mem_append_right _ (e_evt m ct2 hm2)
    | dir cs =>
      have hOkc : SyncOk (FSNode.dir cs) := hOk (n, .dir cs) (List.mem_cons_self _ _)
      have hwopt : wfOpt (lookupEntry res n) = true := by
        rcases hlk : lookupEntry res n with _ | v
        · rfl
        · have hmemv := mem_of_lookupEntry res n v hlk
          rw [wfList_iff] at hwfres
          simpa [wfOpt] using (hwfres (n, v) hmemv).2
      obtain ⟨herr, fin, hrep, hwfin, hequiv⟩ :=
        hOkc (joinPath sf n) (joinPath rf n) (lookupEntry res n) hwc hwopt hc_head rfl
      have hnd2 : nodupKeys (setEntry res n (.dir fin)) = true :=
        nodupKeys_setEntry _ _ _ hndres
      have hwf2 : wfList (setEntry res n (.dir fin)) = true :=
        wfList_setEntry _ _ _ hwfres hgn hwfin
      have hlk2 : lookupEntry (setEntry res n (.dir fin)) n = some (.dir fin) :=
        lookupEntry_setEntry_self _ _ _
      have hlkne : ∀ m, m ≠ n →
          lookupEntry (setEntry res n (.dir fin)) m = lookupEntry res m :=
        fun m hm => lookupEntry_setEntry_ne res n m _ hm
      have hcompat2 : compatList rest (setEntry res n (.dir fin)) = true := by
        rw [compatList_iff] at hc_rest ⊢
        intro q hq
        have hqn : q.1 ≠ n := by
          intro h
          exact hn_notin (h ▸ List.mem_map.mpr ⟨q, hq, rfl⟩)
        rw [hlkne q.1 hqn]
        exact hc_rest q hq
      obtain ⟨res2, e_node, e_err, e_nd, e_wf, e_look, e_unch, e_evt⟩ :=
        ih (setEntry res n (.dir fin)) hOkRest hwrest hndrest hnd2 hwf2 hcompat2
      have hstep : syncEntries sf rf ((n, .dir cs) :: rest) (.dir res) =
          ((syncEntries sf rf rest (.dir (setEntry res n (.dir fin)))).1,
           (syncCore (joinPath sf n) (joinPath rf n) (.dir cs) (lookupEntry res n)).events ++
             (syncEntries sf rf rest (.dir (setEntry res n (.dir fin)))).2.1,
           (syncEntries sf rf rest (.dir (setEntry res n (.dir fin)))).2.2) := by
        simp only [syncEntries, hrep, herr]
      refine ⟨res2, ?_, ?_, e_nd, e_wf, ?_, ?_, ?_⟩
      · rw [hstep]
        exact e_node
      · rw [hstep]
        exact e_err
      · intro m cm hm
        rcases List.mem_cons.mp hm with heq | hm2
        · rw [Prod.mk.injEq] at heq
          obtain ⟨rfl, rfl⟩ := heq
          refine ⟨.dir fin, ?_, hequiv⟩
          rw [e_unch m hn_notin, hlk2]
        · exact e_look m cm hm2
      · intro m hm
        have hmn : m ≠ n := by
          intro h
          exact hm (h ▸ List.mem_cons_self _ _)
        have hmr : m ∉ rest.map Prod.fst := by
          intro h
          exact hm (List.mem_cons_of_mem _ h)
        rw [e_unch m hmr, hlkne m hmn]
      · intro m ct2 hm
        rw [hstep]
        rcases List.mem_cons.mp hm with heq | hm2
        · rw [Prod.mk.injEq] at heq
          obtain ⟨rfl, hc2⟩ := heq
          simp at hc2
        · exact List.mem_append_right _ (e_evt m ct2 hm2)

theorem compatList_nil_right (l : List (String × FSNode)) : compatList l [] = true := by
  rw [compatList_iff]
  intro p _
  exact compatB_none p.2

theorem syncOk_all : ∀ t, SyncOk t := by
  refine FSNode.nestedInd SyncOk (fun s => ?_) (fun es hmem => ?_)
  · intro sf rf repl _ _ _ hdir
    simp [FSNode.isDir] at hdir
  · intro sf rf repl hwf hwr hcompat _
    rw [wfB_dir_iff] at hwf
    obtain ⟨hnd, hwl⟩ := hwf
    have hndl := hnd
    -- split on the replica argument
    match repl with
    | none =>
      obtain ⟨res2, e_node, e_err, e_nd, e_wf, e_look, e_unch, e_evt⟩ :=
        syncEntries_ok sf rf es [] hmem hwl hndl (by rfl) (by rfl)
          (compatList_nil_right es)
      have hcore : syncCore sf rf (.dir es) none =
          { replica := some (.dir ((res2.filter (fun p => (es.map Prod.fst).contains p.1)))),
            events := [Event.createDir rf] ++ (syncEntries sf rf es (.dir [])).2.1 ++
              removeEvents rf (es.map Prod.fst) res2,
            err := none } := by
        simp only [syncCore, e_err, e_node]
        rw [removeLoop_char rf (es.map Prod.fst) res2 e_nd]
      refine ⟨by rw [hcore], (res2.filter (fun p => (es.map Prod.fst).contains p.1)), by rw [hcore], ?_, ?_⟩
      · rw [wfB_dir_iff]
        exact ⟨nodupKeys_filter _ _ e_nd, wfList_filter _ _ e_wf⟩
      · rw [show equivB (FSNode.dir es)
            (FSNode.dir (res2.filter (fun p => (es.map Prod.fst).contains p.1))) =
          (equivFwd es (res2.filter (fun p => (es.map Prod.fst).contains p.1)) &&
            subKeys (res2.filter (fun p => (es.map Prod.fst).contains p.1)) es) from rfl]
        rw [Bool.and_eq_true]
        constructor
        · rw [equivFwd_iff]
          intro p hp
          obtain ⟨d, hd, he⟩ := e_look p.1 p.2 hp
          refine ⟨d, ?_, he⟩
          exact lookupEntry_filter_keep res2 _ p.1 d e_nd hd
            ((strContains_iff _ _).mpr (List.mem_map.mpr ⟨p, hp, rfl⟩))
        · rw [subKeys_iff]
          intro p hp
          obtain ⟨_, hP⟩ := List.mem_filter.mp hp
          rw [lookupEntry_isSome_iff]
          exact (strContains_iff _ _).mp hP
    | some (.file ct) =>
      rw [show compatB (FSNode.dir es) (some (.file ct)) = false from rfl] at hcompat
      cases hcompat
    | some (.dir res) =>
      rw [show compatB (FSNode.dir es) (some (.dir res)) = compatList es res from rfl]
        at hcompat
      simp only [wfOpt, wfB_dir_iff] at hwr
      obtain ⟨hndres, hwres⟩ := hwr
      obtain ⟨res2, e_node, e_err, e_nd, e_wf, e_look, e_unch, e_evt⟩ :=
        syncEntries_ok sf rf es res hmem hwl hndl hndres hwres hcompat
      have hcore : syncCore sf rf (.dir es) (some (.dir res)) =
          { replica := some (.dir ((res2.filter (fun p => (es.map Prod.fst).contains p.1)))),
            events := [] ++ (syncEntries sf rf es (.dir res)).2.1 ++
              removeEvents rf (es.map Prod.fst) res2,
            err := none } := by
        simp only [syncCore, e_err, e_node]
        rw [removeLoop_char rf (es.map Prod.fst) res2 e_nd]
      refine ⟨by rw [hcore], (res2.filter (fun p => (es.map Prod.fst).contains p.1)), by rw [hcore], ?_, ?_⟩
      · rw [wfB_dir_iff]
        exact ⟨nodupKeys_filter _ _ e_nd, wfList_filter _ _ e_wf⟩
      · rw [show equivB (FSNode.dir es)
            (FSNode.dir (res2.filter (fun p => (es.map Prod.fst).contains p.1))) =
          (equivFwd es (res2.filter (fun p => (es.map Prod.fst).contains p.1)) &&
            subKeys (res2.filter (fun p => (es.map Prod.fst).contains p.1)) es) from rfl]
        rw [Bool.and_eq_true]
        constructor
        · rw [equivFwd_iff]
          intro p hp
          obtain ⟨d, hd, he⟩ := e_look p.1 p.2 hp
          refine ⟨d, ?_, he⟩
          exact lookupEntry_filter_keep res2 _ p.1 d e_nd hd
            ((strContains_iff _ _).mpr (List.mem_map.mpr ⟨p, hp, rfl⟩))
        · rw [subKeys_iff]
          intro p hp
          obtain ⟨_, hP⟩ := List.mem_filter.mp hp
          rw [lookupEntry_isSome_iff]
          exact (strContains_iff _ _).mp hP

/-! ### A completed run leaves a fixed point of the engine -/

/-- After any `syncCore` call on a well-formed source directory that
completes without an exception, the replica is a fixed point of the
engine for that source (`syncedB`). -/
def SyncedAfter (t : FSNode) : Prop :=
  ∀ sf rf repl, wfB t = true → wfOpt repl = true → FSNode.isDir t = true →
    (syncCore sf rf t repl).err = none →
    ∃ fin, (syncCore sf rf t repl).replica = some (.dir fin) ∧
      wfB (.dir fin) = true ∧ syncedB t (.dir fin) = true

theorem syncEntries_synced (sf rf : String) :
    ∀ (l res : List (String × FSNode)),
      (∀ p ∈ l, SyncedAfter p.2) →
      wfList l = true → nodupKeys l = true →
      nodupKeys res = true → wfList res = true →
      (syncEntries sf rf l (.dir res)).2.2 = none →
      ∃ res2, (syncEntries sf rf l (.dir res)).1 = .dir res2 ∧
        nodupKeys res2 = true ∧ wfList res2 = true ∧
        (∀ n c, (n, c) ∈ l → syncedEntry n c (lookupEntry res2 n) = true) ∧
        (∀ m, m ∉ l.map Prod.fst → lookupEntry res2 m = lookupEntry res m) ∧
        (∀ n ct d, (n, FSNode.file ct) ∈ l → lookupEntry res n = some (.dir d) →
          lookupEntry res2 n = some (.dir (setEntry d n (.file ct)))) := by
  intro l
  induction l with
  | nil =>
    intro res _ _ _ hndres hwfres _
    refine ⟨res, by simp [syncEntries], hndres, hwfres, ?_, ?_, ?_⟩
    · intro n c h
      simp at h
    · intro m _
      rfl
    · intro n ct d h
      simp at h
  | cons p rest ih =>
    obtain ⟨n, c⟩ := p
    intro res hAf hwfl hndl hndres hwfres hdone
    simp only [wfList, Bool.and_eq_true] at hwfl
    obtain ⟨⟨hgn, hwc⟩, hwrest⟩ := hwfl
    simp only [nodupKeys, Bool.and_eq_true, Bool.not_eq_true'] at hndl
    obtain ⟨hncont, hndrest⟩ := hndl
    have hn_notin : n ∉ rest.map Prod.fst := by
      intro h
      rw [(strContains_iff _ _).mpr h] at hncont
      cases hncont
    have hAfRest : ∀ p ∈ rest, SyncedAfter p.2 := fun p hp => hAf p (List.mem_cons_of_mem _ hp)
    cases c with
    | file ct =>
      -- the copy step must have succeeded, else the whole call raised
      have hmain : ∃ res1, copy2 ct n res (joinPath rf n) = .ok res1 ∧
          syncedEntry n (.file ct) (lookupEntry res1 n) = true ∧
          nodupKeys res1 = true ∧ wfList res1 = true ∧
          (∀ m, m ≠ n → lookupEntry res1 m = lookupEntry res m) ∧
          (∀ d, lookupEntry res n = some (.dir d) →
            res1 = setEntry res n (.dir (setEntry d n (.file ct)))) := by
        rcases hlk : lookupEntry res n with _ | v
        · refine ⟨setEntry res n (.file ct), by simp [copy2, hlk],
            by rw [lookupEntry_setEntry_self]; simp [syncedEntry],
            nodupKeys_setEntry _ _ _ hndres,
            wfList_setEntry _ _ _ hwfres hgn rfl,
            fun m hm => lookupEntry_setEntry_ne res n m _ hm, ?_⟩
          intro d hd
          simp at hd
        · cases v with
          | file ct2 =>
            refine ⟨setEntry res n (.file ct), by simp [copy2, hlk],
              by rw [lookupEntry_setEntry_self]; simp [syncedEntry],
              nodupKeys_setEntry _ _ _ hndres,
              wfList_setEntry _ _ _ hwfres hgn rfl,
              fun m hm => lookupEntry_setEntry_ne res n m _ hm, ?_⟩
            intro d hd
            simp at hd
          | dir d =>
            have hwd : wfB (.dir d) = true := by
              rw [wfList_iff] at hwfres
              exact (hwfres (n, .dir d) (mem_of_lookupEntry res n _ hlk)).2
            rw [wfB_dir_iff] at hwd
            rcases hlkd : lookupEntry d n with _ | w
            · refine ⟨setEntry res n (.dir (setEntry d n (.file ct))),
                by simp [copy2, hlk, hlkd], ?_, nodupKeys_setEntry _ _ _ hndres,
                wfList_setEntry _ _ _ hwfres hgn ?_,
                fun m hm => lookupEntry_setEntry_ne res n m _ hm, ?_⟩
              · rw [lookupEntry_setEntry_self]
                simp [syncedEntry, lookupEntry_setEntry_self]
              · rw [wfB_dir_iff]
                exact ⟨nodupKeys_setEntry _ _ _ hwd.1,
                  wfList_setEntry _ _ _ hwd.2 hgn rfl⟩
              · intro d2 hd2
                obtain rfl : d = d2 := by simpa using hd2
                rfl
            · cases w with
              | file ct2 =>
                refine ⟨setEntry res n (.dir (setEntry d n (.file ct))),
                  by simp [copy2, hlk, hlkd], ?_, nodupKeys_setEntry _ _ _ hndres,
                  wfList_setEntry _ _ _ hwfres hgn ?_,
                  fun m hm => lookupEntry_setEntry_ne res n m _ hm, ?_⟩
                · rw [lookupEntry_setEntry_self]
                  simp [syncedEntry, lookupEntry_setEntry_self]
                · rw [wfB_dir_iff]
                  exact ⟨nodupKeys_setEntry _ _ _ hwd.1,
                    wfList_setEntry _ _ _ hwd.2 hgn rfl⟩
                · intro d2 hd2
                  obtain rfl : d = d2 := by simpa using hd2
                  rfl
              | dir d2 =>
                exfalso
                have hc2 : copy2 ct n res (joinPath rf n) =
                    .error (.isADirectory (joinPath (joinPath rf n) n)) := by
                  simp [copy2, hlk, hlkd]
                rw [show syncEntries sf rf ((n, .file ct) :: rest) (.dir res) =
                    (.dir res, [], some (.isADirectory (joinPath (joinPath rf n) n)))
                  from by simp [syncEntries, hc2]] at hdone
                cases hdone
      obtain ⟨res1, hc2, hsync1, hnd1, hwf1, hlkne1, hdircase⟩ := hmain
      have hstep : syncEntries sf rf ((n, .file ct) :: rest) (.dir res) =
          ((syncEntries sf rf rest (.dir res1)).1,
           [Event.copyFile (joinPath sf n) (joinPath rf n)] ++
             (syncEntries sf rf rest (.dir res1)).2.1,
           (syncEntries sf rf rest (.dir res1)).2.2) := by
        simp only [syncEntries, hc2]
      rw [hstep] at hdone
      obtain ⟨res2, e_node, e_nd, e_wf, e_sync, e_unch, e_dir⟩ :=
        ih res1 hAfRest hwrest hndrest hnd1 hwf1 hdone
      refine ⟨res2, by rw [hstep]; exact e_node, e_nd, e_wf, ?_, ?_, ?_⟩
      · intro m cm hm
        rcases List.mem_cons.mp hm with heq | hm2
        · rw [Prod.mk.injEq] at heq
          obtain ⟨rfl, rfl⟩ := heq
          rw [e_unch m hn_notin]
          exact hsync1
        · exact e_sync m cm hm2
      · intro m hm
        have hmn : m ≠ n := by
          intro h
          exact hm (h ▸ List.mem_cons_self _ _)
        have hmr : m ∉ rest.map Prod.fst := by
          intro h
          exact hm (List.mem_cons_of_mem _ h)
        rw [e_unch m hmr, hlkne1 m hmn]
      · intro m ct2 d hm hd
        rcases List.mem_cons.mp hm with heq | hm2
        · rw [Prod.mk.injEq] at heq
          obtain ⟨rfl, hfeq⟩ := heq
          obtain rfl : ct2 = ct := by cases hfeq; rfl
          rw [e_unch m hn_notin, hdircase d hd, lookupEntry_setEntry_self]
        · have hmn : m ≠ n := by
            intro h
            exact hn_notin (h ▸ List.mem_map.mpr ⟨(m, FSNode.file ct2), hm2, rfl⟩)
          exact e_dir m ct2 d hm2 (by rw [hlkne1 m hmn]; exact hd)
    | dir cs =>
      have hAfc : SyncedAfter (FSNode.dir cs) := hAf (n, .dir cs) (List.mem_cons_self _ _)
      have hwopt : wfOpt (lookupEntry res n) = true := by
        rcases hlk : lookupEntry res n with _ | v
        · rfl
        · have hmemv := mem_of_lookupEntry res n v hlk
          rw [wfList_iff] at hwfres
          simpa [wfOpt] using (hwfres (n, v) hmemv).2
      -- the recursive call must have completed, else the whole call raised
      have herr : (syncCore (joinPath sf n) (joinPath rf n) (.dir cs)
          (lookupEntry res n)).err = none := by
        rcases he : (syncCore (joinPath sf n) (joinPath rf n) (.dir cs)
            (lookupEntry res n)).err with _ | e
        · rfl
        · exfalso
          rw [show syncEntries sf rf ((n, .dir cs) :: rest) (.dir res) =
              ((FSNode.dir (setEntry res n
                (match (syncCore (joinPath sf n) (joinPath rf n) (.dir cs)
                    (lookupEntry res n)).replica with
                  | some t => t
                  | none => FSNode.dir [])),
                (syncCore (joinPath sf n) (joinPath rf n) (.dir cs)
                  (lookupEntry res n)).events, some e))
            from by simp [syncEntries, he]] at hdone
          cases hdone
      obtain ⟨fin, hrep, hwfin, hsync⟩ :=
        hAfc (joinPath sf n) (joinPath rf n) (lookupEntry res n) hwc hwopt rfl herr
      have hstep : syncEntries sf rf ((n, .dir cs) :: rest) (.dir res) =
          ((syncEntries sf rf rest (.dir (setEntry res n (.dir fin)))).1,
           (syncCore (joinPath sf n) (joinPath rf n) (.dir cs) (lookupEntry res n)).events ++
             (syncEntries sf rf rest (.dir (setEntry res n (.dir fin)))).2.1,
           (syncEntries sf rf rest (.dir (setEntry res n (.dir fin)))).2.2) := by
        simp only [syncEntries, hrep, herr]
      rw [hstep] at hdone
      have hnd1 : nodupKeys (setEntry res n (.dir fin)) = true :=
        nodupKeys_setEntry _ _ _ hndres
      have hwf1 : wfList (setEntry res n (.dir fin)) = true :=
        wfList_setEntry _ _ _ hwfres hgn hwfin
      obtain ⟨res2, e_node, e_nd, e_wf, e_sync, e_unch, e_dir⟩ :=
        ih (setEntry res n (.dir fin)) hAfRest hwrest hndrest hnd1 hwf1 hdone
      refine ⟨res2, by rw [hstep]; exact e_node, e_nd, e_wf, ?_, ?_, ?_⟩
      · intro m cm hm
        rcases List.mem_cons.mp hm with heq | hm2
        · rw [Prod.mk.injEq] at heq
          obtain ⟨rfl, rfl⟩ := heq
          rw [e_unch m hn_notin, lookupEntry_setEntry_self]
          exact hsync
        · exact e_sync m cm hm2
      · intro m hm
        have hmn : m ≠ n := by
          intro h
          exact hm (h ▸ List.mem_cons_self _ _)
        have hmr : m ∉ rest.map Prod.fst := by
          intro h
          exact hm (List.mem_cons_of_mem _ h)
        rw [e_unch m hmr, lookupEntry_setEntry_ne res n m _ hmn]
      · intro m ct2 d hm hd
        rcases List.mem_cons.mp hm with heq | hm2
        · rw [Prod.mk.injEq] at heq
          obtain ⟨rfl, hfeq⟩ := heq
          cases hfeq
        · have hmn : m ≠ n := by
            intro h
            exact hn_notin (h ▸ List.mem_map.mpr ⟨(m, FSNode.file ct2), hm2, rfl⟩)
          exact e_dir m ct2 d hm2 (by rw [lookupEntry_setEntry_ne res n m _ hmn]; exact hd)

theorem syncCore_dir_done (sf rf : String) (es : List (String × FSNode))
    (repl : Option FSNode)
    (hdone : (syncCore sf rf (.dir es) repl).err = none) :
    (syncEntries sf rf es
      (match repl with | none => FSNode.dir [] | some r => r)).2.2 = none := by
  rcases hE : (syncEntries sf rf es
      (match repl with | none => FSNode.dir [] | some r => r)).2.2 with _ | e
  · rfl
  · exfalso
    cases repl <;> simp [syncCore, hE] at hdone

theorem syncedAfter_all : ∀ t, SyncedAfter t := by
  refine FSNode.nestedInd SyncedAfter (fun s => ?_) (fun es hmem => ?_)
  · intro sf rf repl _ _ hdir
    simp [FSNode.isDir] at hdir
  · intro sf rf repl hwf hwr _ hdone
    rw [wfB_dir_iff] at hwf
    obtain ⟨hnd, hwl⟩ := hwf
    match repl with
    | some (.file ct) =>
      exfalso
      have h := (syncCore_file_replica sf rf es ct).2
      rw [hdone] at h
      cases h
    | none =>
      have hE : (syncEntries sf rf es (.dir [])).2.2 = none :=
        syncCore_dir_done sf rf es none hdone
      obtain ⟨res2, e_node, e_nd, e_wf, e_sync, e_unch, e_dir⟩ :=
        syncEntries_synced sf rf es [] hmem hwl hnd (by rfl) (by rfl) hE
      have hcore : syncCore sf rf (.dir es) none =
          { replica := some (.dir ((res2.filter (fun p => (es.map Prod.fst).contains p.1)))),
            events := [Event.createDir rf] ++ (syncEntries sf rf es (.dir [])).2.1 ++
              removeEvents rf (es.map Prod.fst) res2,
            err := none } := by
        simp only [syncCore, hE, e_node]
        rw [removeLoop_char rf (es.map Prod.fst) res2 e_nd]
      refine ⟨(res2.filter (fun p => (es.map Prod.fst).contains p.1)), by rw [hcore], ?_, ?_⟩
      · rw [wfB_dir_iff]
        exact ⟨nodupKeys_filter _ _ e_nd, wfList_filter _ _ e_wf⟩
      · rw [show syncedB (FSNode.dir es)
            (FSNode.dir (res2.filter (fun p => (es.map Prod.fst).contains p.1))) =
          (subKeys (res2.filter (fun p => (es.map Prod.fst).contains p.1)) es &&
            syncedList es (res2.filter (fun p => (es.map Prod.fst).contains p.1)))
          from rfl]
        rw [Bool.and_eq_true]
        constructor
        · rw [subKeys_iff]
          intro p hp
          obtain ⟨_, hP⟩ := List.mem_filter.mp hp
          rw [lookupEntry_isSome_iff]
          exact (strContains_iff _ _).mp hP
        · rw [syncedList_iff]
          intro p hp
          have hs := e_sync p.1 p.2 hp
          rcases hl2 : lookupEntry res2 p.1 with _ | d
          · rw [hl2] at hs
            simp [syncedEntry] at hs
          · rw [hl2] at hs
            rw [lookupEntry_filter_keep res2 _ p.1 d e_nd hl2
              ((strContains_iff _ _).mpr (List.mem_map.mpr ⟨p, hp, rfl⟩))]
            exact hs
    | some (.dir res) =>
      simp only [wfOpt, wfB_dir_iff] at hwr
      obtain ⟨hndres, hwres⟩ := hwr
      have hE : (syncEntries sf rf es (.dir res)).2.2 = none :=
        syncCore_dir_done sf rf es (some (.dir res)) hdone
      obtain ⟨res2, e_node, e_nd, e_wf, e_sync, e_unch, e_dir⟩ :=
        syncEntries_synced sf rf es res hmem hwl hnd hndres hwres hE
      have hcore : syncCore sf rf (.dir es) (some (.dir res)) =
          { replica := some (.dir ((res2.filter (fun p => (es.map Prod.fst).contains p.1)))),
            events := [] ++ (syncEntries sf rf es (.dir res)).2.1 ++
              removeEvents rf (es.map Prod.fst) res2,
            err := none } := by
        simp only [syncCore, hE, e_node]
        rw [removeLoop_char rf (es.map Prod.fst) res2 e_nd]
      refine ⟨(res2.filter (fun p => (es.map Prod.fst).contains p.1)), by rw [hcore], ?_, ?_⟩
      · rw [wfB_dir_iff]
        exact ⟨nodupKeys_filter _ _ e_nd, wfList_filter _ _ e_wf⟩
      · rw [show syncedB (FSNode.dir es)
            (FSNode.dir (res2.filter (fun p => (es.map Prod.fst).contains p.1))) =
          (subKeys (res2.filter (fun p => (es.map Prod.fst).contains p.1)) es &&
            syncedList es (res2.filter (fun p => (es.map Prod.fst).contains p.1)))
          from rfl]
        rw [Bool.and_eq_true]
        constructor
        · rw [subKeys_iff]
          intro p hp
          obtain ⟨_, hP⟩ := List.mem_filter.mp hp
          rw [lookupEntry_isSome_iff]
          exact (strContains_iff _ _).mp hP
        · rw [syncedList_iff]
          intro p hp
          have hs := e_sync p.1 p.2 hp
          rcases hl2 : lookupEntry res2 p.1 with _ | d
          · rw [hl2] at hs
            simp [syncedEntry] at hs
          · rw [hl2] at hs
            rw [lookupEntry_filter_keep res2 _ p.1 d e_nd hl2
              ((strContains_iff _ _).mpr (List.mem_map.mpr ⟨p, hp, rfl⟩))]
            exact hs

/-! ### A fixed point passes through the engine unchanged -/

/-- Running `syncCore` on a replica that is already a fixed point for the
source leaves the replica tree unchanged, completes, and emits only
`copy-file` events. -/
def SyncFix (t : FSNode) : Prop :=
  ∀ sf rf fin, wfB t = true → wfB (.dir fin) = true → FSNode.isDir t = true →
    syncedB t (.dir fin) = true →
    (syncCore sf rf t (some (.dir fin))).replica = some (.dir fin) ∧
    (syncCore sf rf t (some (.dir fin))).err = none ∧
    ∀ e ∈ (syncCore sf rf t (some (.dir fin))).events, ∃ a b, e = Event.copyFile a b

theorem syncEntries_fix (sf rf : String) :
    ∀ (l res : List (String × FSNode)),
      (∀ p ∈ l, SyncFix p.2) →
      wfList l = true →
      nodupKeys res = true → wfList res = true →
      (∀ p ∈ l, syncedEntry p.1 p.2 (lookupEntry res p.1) = true) →
      (syncEntries sf rf l (.dir res)).1 = .dir res ∧
      (syncEntries sf rf l (.dir res)).2.2 = none ∧
      ∀ e ∈ (syncEntries sf rf l (.dir res)).2.1, ∃ a b, e = Event.copyFile a b := by
  intro l
  induction l with
  | nil =>
    intro res _ _ _ _ _
    refine ⟨by simp [syncEntries], by simp [syncEntries], ?_⟩
    intro e he
    simp [syncEntries] at he
  | cons p rest ih =>
    obtain ⟨n, c⟩ := p
    intro res hFix hwfl hndres hwfres hsync
    simp only [wfList, Bool.and_eq_true] at hwfl
    obtain ⟨⟨hgn, hwc⟩, hwrest⟩ := hwfl
    have hFixRest : ∀ p ∈ rest, SyncFix p.2 := fun p hp => hFix p (List.mem_cons_of_mem _ hp)
    have hsyncRest : ∀ p ∈ rest, syncedEntry p.1 p.2 (lookupEntry res p.1) = true :=
      fun p hp => hsync p (List.mem_cons_of_mem _ hp)
    have hsyncHead := hsync (n, c) (List.mem_cons_self _ _)
    cases c with
    | file ct =>
      have hcopy : copy2 ct n res (joinPath rf n) = .ok res := by
        rcases hlk : lookupEntry res n with _ | v
        · rw [hlk] at hsyncHead
          simp [syncedEntry] at hsyncHead
        · cases v with
          | file ct2 =>
            rw [hlk] at hsyncHead
            have hcteq : ct2 = ct := by
              simp [syncedEntry] at hsyncHead
              exact hsyncHead.symm
            rw [copy2, hlk]
            rw [hcteq] at hlk
            rw [setEntry_eq_of_lookup res n (.file ct) hlk]
          | dir d =>
            rw [hlk] at hsyncHead
            rcases hlkd : lookupEntry d n with _ | w
            · rw [show syncedEntry n (.file ct) (some (.dir d)) =
                  (match lookupEntry d n with
                   | some (.file ct2) => ct == ct2
                   | some (.dir _) => false
                   | none => false) from rfl, hlkd] at hsyncHead
              cases hsyncHead
            · cases w with
              | file ct2 =>
                have hcteq : ct2 = ct := by
                  rw [show syncedEntry n (.file ct) (some (.dir d)) =
                      (match lookupEntry d n with
                       | some (.file ct2) => ct == ct2
                       | some (.dir _) => false
                       | none => false) from rfl, hlkd] at hsyncHead
                  simp at hsyncHead
                  exact hsyncHead.symm
                simp only [copy2, hlk, hlkd]
                rw [hcteq] at hlkd
                rw [setEntry_eq_of_lookup d n (.file ct) hlkd,
                  setEntry_eq_of_lookup res n (.dir d) hlk]
              | dir d2 =>
                rw [show syncedEntry n (.file ct) (some (.dir d)) =
                    (match lookupEntry d n with
                     | some (.file ct2) => ct == ct2
                     | some (.dir _) => false
                     | none => false) from rfl, hlkd] at hsyncHead
                cases hsyncHead
      have hstep : syncEntries sf rf ((n, .file ct) :: rest) (.dir res) =
          ((syncEntries sf rf rest (.dir res)).1,
           [Event.copyFile (joinPath sf n) (joinPath rf n)] ++
             (syncEntries sf rf rest (.dir res)).2.1,
           (syncEntries sf rf rest (.dir res)).2.2) := by
        simp only [syncEntries, hcopy]
      obtain ⟨e_node, e_err, e_evt⟩ := ih res hFixRest hwrest hndres hwfres hsyncRest
      refine ⟨by rw [hstep]; exact e_node, by rw [hstep]; exact e_err, ?_⟩
      intro e he
      rw [hstep] at he
      rcases List.mem_append.mp he with h1 | h1
      · exact ⟨joinPath sf n, joinPath rf n, List.mem_singleton.mp h1⟩
      · exact e_evt e h1
    | dir cs =>
      have hFixc : SyncFix (FSNode.dir cs) := hFix (n, .dir cs) (List.mem_cons_self _ _)
      rcases hlk : lookupEntry res n with _ | v
      · rw [hlk] at hsyncHead
        simp [syncedEntry] at hsyncHead
      · cases v with
        | file ct2 =>
          rw [hlk] at hsyncHead
          simp [syncedEntry] at hsyncHead
        | dir d2 =>
          rw [hlk] at hsyncHead
          have hsyncB : syncedB (FSNode.dir cs) (.dir d2) = true := hsyncHead
          have hwd2 : wfB (.dir d2) = true := by
            rw [wfList_iff] at hwfres
            exact (hwfres (n, .dir d2) (mem_of_lookupEntry res n _ hlk)).2
          obtain ⟨f_rep, f_err, f_evt⟩ :=
            hFixc (joinPath sf n) (joinPath rf n) d2 hwc hwd2 rfl hsyncB
          have hset : setEntry res n (.dir d2) = res :=
            setEntry_eq_of_lookup res n (.dir d2) hlk
          have hstep : syncEntries sf rf ((n, .dir cs) :: rest) (.dir res) =
              ((syncEntries sf rf rest (.dir res)).1,
               (syncCore (joinPath sf n) (joinPath rf n) (.dir cs) (some (.dir d2))).events ++
                 (syncEntries sf rf rest (.dir res)).2.1,
               (syncEntries sf rf rest (.dir res)).2.2) := by
            simp only [syncEntries, hlk, f_rep, f_err, hset]
          obtain ⟨e_node, e_err, e_evt⟩ := ih res hFixRest hwrest hndres hwfres hsyncRest
          refine ⟨by rw [hstep]; exact e_node, by rw [hstep]; exact e_err, ?_⟩
          intro e he
          rw [hstep] at he
          rcases List.mem_append.mp he with h1 | h1
          · exact f_evt e h1
          · exact e_evt e h1

theorem syncFix_all : ∀ t, SyncFix t := by
  refine FSNode.nestedInd SyncFix (fun s => ?_) (fun es hmem => ?_)
  · intro sf rf fin _ _ hdir
    simp [FSNode.isDir] at hdir
  · intro sf rf fin hwf hwfin _ hsync
    rw [wfB_dir_iff] at hwf
    obtain ⟨hnd, hwl⟩ := hwf
    have hwfin2 := hwfin
    rw [wfB_dir_iff] at hwfin2
    obtain ⟨hndfin, hwlfin⟩ := hwfin2
    rw [show syncedB (FSNode.dir es) (.dir fin) =
        (subKeys fin es && syncedList es fin) from rfl, Bool.and_eq_true] at hsync
    obtain ⟨hsub, hslist⟩ := hsync
    rw [syncedList_iff] at hslist
    obtain ⟨e_node, e_err, e_evt⟩ :=
      syncEntries_fix sf rf es fin hmem hwl hndfin hwlfin hslist
    have hkeys : ∀ p ∈ fin, (es.map Prod.fst).contains p.1 = true := by
      intro p hp
      rw [subKeys_iff] at hsub
      rw [strContains_iff]
      rw [← lookupEntry_isSome_iff]
      exact hsub p hp
    have hfilter : fin.filter (fun p => (es.map Prod.fst).contains p.1) = fin :=
      List.filter_eq_self.mpr (fun p hp => hkeys p hp)
    have hrevents : removeEvents rf (es.map Prod.fst) fin = [] := by
      rw [removeEvents]
      rw [List.filterMap_eq_nil_iff]
      intro p hp
      rw [if_pos (hkeys p hp)]
    have hcore : syncCore sf rf (.dir es) (some (.dir fin)) =
        { replica := some (.dir fin),
          events := [] ++ (syncEntries sf rf es (.dir fin)).2.1 ++ [],
          err := none } := by
      simp only [syncCore, e_err, e_node]
      rw [removeLoop_char rf (es.map Prod.fst) fin hndfin]
      rw [hfilter, hrevents]
    refine ⟨by rw [hcore], by rw [hcore], ?_⟩
    intro e he
    rw [hcore] at he
    simp only [List.nil_append, List.append_nil] at he
    exact e_evt e he

/-! ### Shape of the event trace -/

theorem joinPath_assoc (r a x : String) :
    joinPath (joinPath r a) x = joinPath r (joinPath a x) := by
  simp [joinPath, String.append_assoc]

theorem removeLoop_events_shape (rf : String) (S : List String) :
    ∀ (names : List String) (res : List (String × FSNode)) (e : Event),
      e ∈ (removeLoop rf S names res).2.1 →
      ∃ n, n ∈ names ∧
        (e = .removeDir (joinPath rf n) ∨ e = .removeFile (joinPath rf n)) := by
  intro names
  induction names with
  | nil =>
    intro res e he
    simp [removeLoop] at he
  | cons m ms ih =>
    intro res e he
    by_cases hS : S.contains m
    · rw [show removeLoop rf S (m :: ms) res = removeLoop rf S ms res from by
        simp only [removeLoop]; rw [if_pos hS]] at he
      obtain ⟨n, hn, hor⟩ := ih res e he
      exact ⟨n, List.mem_cons_of_mem _ hn, hor⟩
    · rcases hlk : lookupEntry res m with _ | v
      · rw [show removeLoop rf S (m :: ms) res = (res, [], some (.fileNotFound (joinPath rf m)))
          from by simp only [removeLoop]; rw [if_neg hS, hlk]] at he
        simp at he
      · cases v with
        | dir d =>
          rw [show removeLoop rf S (m :: ms) res =
              ((removeLoop rf S ms (removeEntry res m)).1,
               .removeDir (joinPath rf m) :: (removeLoop rf S ms (removeEntry res m)).2.1,
               (removeLoop rf S ms (removeEntry res m)).2.2)
            from by simp only [removeLoop]; rw [if_neg hS, hlk]] at he
          rcases List.mem_cons.mp he with rfl | he2
          · exact ⟨m, List.mem_cons_self _ _, Or.inl rfl⟩
          · obtain ⟨n, hn, hor⟩ := ih (removeEntry res m) e he2
            exact ⟨n, List.mem_cons_of_mem _ hn, hor⟩
        | file ct =>
          rw [show removeLoop rf S (m :: ms) res =
              ((removeLoop rf S ms (removeEntry res m)).1,
               .removeFile (joinPath rf m) :: (removeLoop rf S ms (removeEntry res m)).2.1,
               (removeLoop rf S ms (removeEntry res m)).2.2)
            from by simp only [removeLoop]; rw [if_neg hS, hlk]] at he
          rcases List.mem_cons.mp he with rfl | he2
          · exact ⟨m, List.mem_cons_self _ _, Or.inr rfl⟩
          · obtain ⟨n, hn, hor⟩ := ih (removeEntry res m) e he2
            exact ⟨n, List.mem_cons_of_mem _ hn, hor⟩

/-- Every event a `syncCore` call logs is a `create-dir`, `copy-file` or
`remove` line — never an `error` line — and every `remove` line names a
path strictly below the call's replica folder. -/
def EventsTame (t : FSNode) : Prop :=
  ∀ sf rf repl e, e ∈ (syncCore sf rf t repl).events →
    (∀ m, e ≠ .errorLog m) ∧
    (∀ p, e = .removeDir p ∨ e = .removeFile p → ∃ q, p = joinPath rf q)

theorem syncEntries_events_tame (sf rf : String) :
    ∀ (l : List (String × FSNode)) (r1 : FSNode),
      (∀ p ∈ l, EventsTame p.2) →
      ∀ e, e ∈ (syncEntries sf rf l r1).2.1 →
        (∀ m, e ≠ .errorLog m) ∧
        (∀ p, e = .removeDir p ∨ e = .removeFile p →
          ∃ n q, n ∈ l.map Prod.fst ∧ p = joinPath (joinPath rf n) q) := by
  intro l
  induction l with
  | nil =>
    intro r1 _ e he
    simp [syncEntries] at he
  | cons pr rest ih =>
    obtain ⟨n, c⟩ := pr
    intro r1 hTame e he
    have hTameRest : ∀ p ∈ rest, EventsTame p.2 :=
      fun p hp => hTame p (List.mem_cons_of_mem _ hp)
    have hup : ∀ n2 q2, n2 ∈ rest.map Prod.fst → ∀ p : String,
        p = joinPath (joinPath rf n2) q2 →
        ∃ n3 q3, n3 ∈ ((n, c) :: rest).map Prod.fst ∧ p = joinPath (joinPath rf n3) q3 := by
      intro n2 q2 hn2 p hp
      refine ⟨n2, q2, ?_, hp⟩
      simp only [List.map_cons]
      exact List.mem_cons_of_mem _ hn2
    cases c with
    | dir cs =>
      cases r1 with
      | file ct =>
        rw [show syncEntries sf rf ((n, .dir cs) :: rest) (.file ct) =
            (.file ct, [Event.createDir (joinPath rf n)],
             some (.notADirectory (joinPath rf n)))
          from by simp [syncEntries]] at he
        rcases List.mem_singleton.mp he with rfl
        constructor
        · intro m h
          cases h
        · intro p h
          rcases h with h | h <;> cases h
      | dir res =>
        have hchild := hTame (n, .dir cs) (List.mem_cons_self _ _)
        rcases hre : (syncCore (joinPath sf n) (joinPath rf n) (.dir cs)
            (lookupEntry res n)).err with _ | e2
        · rw [show syncEntries sf rf ((n, .dir cs) :: rest) (.dir res) =
              ((syncEntries sf rf rest
                 (.dir (setEntry res n
                   (match (syncCore (joinPath sf n) (joinPath rf n) (.dir cs)
                       (lookupEntry res n)).replica with
                     | some t => t
                     | none => FSNode.dir [])))).1,
               (syncCore (joinPath sf n) (joinPath rf n) (.dir cs)
                  (lookupEntry res n)).events ++
                 (syncEntries sf rf rest
                   (.dir (setEntry res n
                     (match (syncCore (joinPath sf n) (joinPath rf n) (.dir cs)
                         (lookupEntry res n)).replica with
                       | some t => t
                       | none => FSNode.dir [])))).2.1,
               (syncEntries sf rf rest
                 (.dir (setEntry res n
                   (match (syncCore (joinPath sf n) (joinPath rf n) (.dir cs)
                       (lookupEntry res n)).replica with
                     | some t => t
                     | none => FSNode.dir [])))).2.2)
            from by simp [syncEntries, hre]] at he
          rcases List.mem_append.mp he with h1 | h1
          · obtain ⟨hne, hrem⟩ := hchild (joinPath sf n) (joinPath rf n)
              (lookupEntry res n) e h1
            refine ⟨hne, ?_⟩
            intro p hp
            obtain ⟨q, hq⟩ := hrem p hp
            exact ⟨n, q, by simp, hq⟩
          · obtain ⟨hne, hrem⟩ := ih _ hTameRest e h1
            refine ⟨hne, ?_⟩
            intro p hp
            obtain ⟨n2, q2, hn2, hq2⟩ := hrem p hp
            exact hup n2 q2 hn2 p hq2
        · rw [show syncEntries sf rf ((n, .dir cs) :: rest) (.dir res) =
              (.dir (setEntry res n
                 (match (syncCore (joinPath sf n) (joinPath rf n) (.dir cs)
                     (lookupEntry res n)).replica with
                   | some t => t
                   | none => FSNode.dir [])),
               (syncCore (joinPath sf n) (joinPath rf n) (.dir cs)
                  (lookupEntry res n)).events, some e2)
            from by simp [syncEntries, hre]] at he
          obtain ⟨hne, hrem⟩ := hchild (joinPath sf n) (joinPath rf n)
            (lookupEntry res n) e he
          refine ⟨hne, ?_⟩
          intro p hp
          obtain ⟨q, hq⟩ := hrem p hp
          exact ⟨n, q, by simp, hq⟩
    | file ct =>
      cases r1 with
      | file ct2 =>
        rw [show syncEntries sf rf ((n, .file ct) :: rest) (.file ct2) =
            (.file ct2, [], some (.notADirectory (joinPath rf n)))
          from by simp [syncEntries]] at he
        simp at he
      | dir res =>
        rcases hc2 : copy2 ct n res (joinPath rf n) with e2 | res1
        · rw [show syncEntries sf rf ((n, .file ct) :: rest) (.dir res) =
              (.dir res, [], some e2)
            from by simp [syncEntries, hc2]] at he
          simp at he
        · rw [show syncEntries sf rf ((n, .file ct) :: rest) (.dir res) =
              ((syncEntries sf rf rest (.dir res1)).1,
               [Event.copyFile (joinPath sf n) (joinPath rf n)] ++
                 (syncEntries sf rf rest (.dir res1)).2.1,
               (syncEntries sf rf rest (.dir res1)).2.2)
            from by simp [syncEntries, hc2]] at he
          rcases List.mem_append.mp he with h1 | h1
          · rcases List.mem_singleton.mp h1 with rfl
            constructor
            · intro m h
              cases h
            · intro p h
              rcases h with h | h <;> cases h
          · obtain ⟨hne, hrem⟩ := ih _ hTameRest e h1
            refine ⟨hne, ?_⟩
            intro p hp
            obtain ⟨n2, q2, hn2, hq2⟩ := hrem p hp
            exact hup n2 q2 hn2 p hq2

theorem eventsTame_all : ∀ t, EventsTame t := by
  refine FSNode.nestedInd EventsTame (fun s => ?_) (fun es hmem => ?_)
  · intro sf rf repl e he
    cases repl with
    | none =>
      rw [show syncCore sf rf (.file s) none =
          { replica := some (.dir []), events := [Event.createDir rf],
            err := some (.notADirectory sf) } from by simp [syncCore]] at he
      rcases List.mem_singleton.mp he with rfl
      constructor
      · intro m h
        cases h
      · intro p h
        rcases h with h | h <;> cases h
    | some r =>
      rw [show syncCore sf rf (.file s) (some r) =
          { replica := some r, events := [], err := some (.notADirectory sf) }
        from by simp [syncCore]] at he
      simp at he
  · intro sf rf repl e he
    have hcreated : ∀ ev ∈ (match repl with
        | none => [Event.createDir rf]
        | some _ => ([] : List Event)),
        (∀ m, ev ≠ .errorLog m) ∧
        (∀ p, ev = .removeDir p ∨ ev = .removeFile p → ∃ q, p = joinPath rf q) := by
      intro ev hev
      cases repl with
      | none =>
        rcases List.mem_singleton.mp hev with rfl
        constructor
        · intro m h
          cases h
        · intro p h
          rcases h with h | h <;> cases h
      | some r => simp at hev
    have hse : ∀ ev ∈ (syncEntries sf rf es (match repl with
        | none => FSNode.dir []
        | some r => r)).2.1,
        (∀ m, ev ≠ .errorLog m) ∧
        (∀ p, ev = .removeDir p ∨ ev = .removeFile p → ∃ q, p = joinPath rf q) := by
      intro ev hev
      obtain ⟨hne, hrem⟩ := syncEntries_events_tame sf rf es _ hmem ev hev
      refine ⟨hne, ?_⟩
      intro p hp
      obtain ⟨n2, q2, _, hq2⟩ := hrem p hp
      exact ⟨joinPath n2 q2, by rw [hq2, joinPath_assoc]⟩
    -- the three shapes of the dir branch
    rcases hE : (syncEntries sf rf es (match repl with
        | none => FSNode.dir []
        | some r => r)).2.2 with _ | e2
    · rcases hN : (syncEntries sf rf es (match repl with
          | none => FSNode.dir []
          | some r => r)).1 with ct | res
      · have hev : (syncCore sf rf (.dir es) repl).events =
            (match repl with
              | none => [Event.createDir rf]
              | some _ => ([] : List Event)) ++
            (syncEntries sf rf es (match repl with
              | none => FSNode.dir []
              | some r => r)).2.1 := by
          cases repl <;> simp [syncCore, hE, hN]
        rw [hev] at he
        rcases List.mem_append.mp he with h1 | h1
        · exact hcreated e h1
        · exact hse e h1
      · have hev : (syncCore sf rf (.dir es) repl).events =
            (match repl with
              | none => [Event.createDir rf]
              | some _ => ([] : List Event)) ++
            (syncEntries sf rf es (match repl with
              | none => FSNode.dir []
              | some r => r)).2.1 ++
            (removeLoop rf (es.map Prod.fst) (res.map Prod.fst) res).2.1 := by
          cases repl <;> simp [syncCore, hE, hN]
        rw [hev] at he
        rcases List.mem_append.mp he with h1 | h1
        · rcases List.mem_append.mp h1 with h2 | h2
          · exact hcreated e h2
          · exact hse e h2
        · obtain ⟨n, _, hor⟩ := removeLoop_events_shape rf (es.map Prod.fst)
            (res.map Prod.fst) res e h1
          rcases hor with rfl | rfl
          · constructor
            · intro m h
              cases h
            · intro p h
              rcases h with h | h
              · cases h
                exact ⟨n, rfl⟩
              · cases h
          · constructor
            · intro m h
              cases h
            · intro p h
              rcases h with h | h
              · cases h
              · cases h
                exact ⟨n, rfl⟩
    · have hev : (syncCore sf rf (.dir es) repl).events =
          (match repl with
            | none => [Event.createDir rf]
            | some _ => ([] : List Event)) ++
          (syncEntries sf rf es (match repl with
            | none => FSNode.dir []
            | some r => r)).2.1 := by
        cases repl <;> simp [syncCore, hE]
      rw [hev] at he
      rcases List.mem_append.mp he with h1 | h1
      · exact hcreated e h1
      · exact hse e h1

/-! ### One iteration of the copy loop, as a function -/

/-- The body of one iteration of the copy loop (lines 80-90), processing
the source entry `(name, child)` with the replica folder currently at
`replica1`. -/
def syncStep (sf rf : String) (name : String) (child replica1 : FSNode) :
    FSNode × List Event × Option PyError :=
  match child with
  | .dir _ =>
    match replica1 with
    | .file _ =>
      (replica1, [.createDir (joinPath rf name)],
       some (.notADirectory (joinPath rf name)))
    | .dir res =>
      let r := syncCore (joinPath sf name) (joinPath rf name) child (lookupEntry res name)
      let newChild : FSNode :=
        match r.replica with
        | some t => t
        | none => .dir []
      (.dir (setEntry res name newChild), r.events, r.err)
  | .file content =>
    match replica1 with
    | .file _ =>
      (replica1, [], some (.notADirectory (joinPath rf name)))
    | .dir res =>
      match copy2 content name res (joinPath rf name) with
      | .ok res1 =>
        (.dir res1,
         [.copyFile (joinPath sf name) (joinPath rf name)],
         none)
      | .error e => (.dir res, [], some e)

theorem syncEntries_cons (sf rf : String) (n : String) (c : FSNode)
    (rest : List (String × FSNode)) (r1 : FSNode) :
    syncEntries sf rf ((n, c) :: rest) r1 =
      match (syncStep sf rf n c r1).2.2 with
      | some e => ((syncStep sf rf n c r1).1, (syncStep sf rf n c r1).2.1, some e)
      | none =>
        ((syncEntries sf rf rest (syncStep sf rf n c r1).1).1,
         (syncStep sf rf n c r1).2.1 ++
           (syncEntries sf rf rest (syncStep sf rf n c r1).1).2.1,
         (syncEntries sf rf rest (syncStep sf rf n c r1).1).2.2) := by
  cases c <;> cases r1 <;> rfl

/-- If the first entry's processing raises, the loop's result does not
depend on the remaining entries: the call behaves exactly like the call
on the first entry alone. -/
theorem syncEntries_abort (sf rf : String) (n : String) (c : FSNode)
    (rest : List (String × FSNode)) (r1 : FSNode)
    (h : (syncEntries sf rf [(n, c)] r1).2.2.isSome = true) :
    syncEntries sf rf ((n, c) :: rest) r1 = syncEntries sf rf [(n, c)] r1 := by
  rcases hs : (syncStep sf rf n c r1).2.2 with _ | e
  · exfalso
    rw [syncEntries_cons, hs] at h
    rw [show syncEntries sf rf [] (syncStep sf rf n c r1).1 =
        ((syncStep sf rf n c r1).1, [], none) from rfl] at h
    simp at h
  · rw [syncEntries_cons, hs, syncEntries_cons, hs]

/-! ### Lookup preservation facts -/

theorem copy2_lookup_ne (ct n : String) (res : List (String × FSNode)) (rp : String)
    (res1 : List (String × FSNode)) (h : copy2 ct n res rp = .ok res1) :
    ∀ k, k ≠ n → lookupEntry res1 k = lookupEntry res k := by
  intro k hk
  rcases hlk : lookupEntry res n with _ | v
  · rw [copy2, hlk] at h
    cases h
    exact lookupEntry_setEntry_ne res n k _ hk
  · cases v with
    | file ct2 =>
      rw [copy2, hlk] at h
      cases h
      exact lookupEntry_setEntry_ne res n k _ hk
    | dir d =>
      rcases hlkd : lookupEntry d n with _ | w
      · simp only [copy2, hlk, hlkd] at h
        cases h
        exact lookupEntry_setEntry_ne res n k _ hk
      · cases w with
        | file ct2 =>
          simp only [copy2, hlk, hlkd] at h
          cases h
          exact lookupEntry_setEntry_ne res n k _ hk
        | dir d2 =>
          simp only [copy2, hlk, hlkd] at h
          cases h

/-! ### A type mismatch (source directory over replica file) always raises -/

theorem syncEntries_mismatch_dirfile (sf rf : String) :
    ∀ (l res : List (String × FSNode)) (n : String) (cs : List (String × FSNode))
      (ct : String),
      nodupKeys l = true → (n, FSNode.dir cs) ∈ l →
      lookupEntry res n = some (.file ct) →
      (syncEntries sf rf l (.dir res)).2.2.isSome = true ∧
      ∃ res2, (syncEntries sf rf l (.dir res)).1 = .dir res2 ∧
        lookupEntry res2 n = some (.file ct) := by
  intro l
  induction l with
  | nil =>
    intro res n cs ct _ hmem _
    simp at hmem
  | cons p rest ih =>
    obtain ⟨m, c⟩ := p
    intro res n cs ct hnd hmem hlk
    simp only [nodupKeys, Bool.and_eq_true, Bool.not_eq_true'] at hnd
    obtain ⟨hmcont, hndrest⟩ := hnd
    rcases List.mem_cons.mp hmem with heq | hmem2
    · -- the mismatched entry is the head
      rw [Prod.mk.injEq] at heq
      obtain ⟨rfl, rfl⟩ := heq
      have hch := syncCore_file_replica (joinPath sf n) (joinPath rf n) cs ct
      rcases hre : (syncCore (joinPath sf n) (joinPath rf n) (.dir cs)
          (lookupEntry res n)).err with _ | e
      · exfalso
        rw [hlk] at hre
        rw [hre] at hch
        simp at hch
      · have hrep : (syncCore (joinPath sf n) (joinPath rf n) (.dir cs)
            (lookupEntry res n)).replica = some (.file ct) := by
          rw [hlk]
          exact hch.1
        have hset : setEntry res n (.file ct) = res := setEntry_eq_of_lookup res n _ hlk
        rw [show syncEntries sf rf ((n, FSNode.dir cs) :: rest) (.dir res) =
            (.dir res,
             (syncCore (joinPath sf n) (joinPath rf n) (.dir cs)
                (lookupEntry res n)).events, some e)
          from by simp [syncEntries, hre, hrep, hset]]
        exact ⟨rfl, res, rfl, hlk⟩
    · -- the mismatched entry is further on; the head has a different name
      have hmn : m ≠ n := by
        intro hEq
        rw [(strContains_iff _ _).mpr
          (hEq ▸ List.mem_map.mpr ⟨(n, FSNode.dir cs), hmem2, rfl⟩)] at hmcont
        cases hmcont
      cases c with
      | file ct2 =>
        rcases hc2 : copy2 ct2 m res (joinPath rf m) with e2 | res1
        · rw [show syncEntries sf rf ((m, .file ct2) :: rest) (.dir res) =
              (.dir res, [], some e2) from by simp [syncEntries, hc2]]
          exact ⟨rfl, res, rfl, hlk⟩
        · have hlk1 : lookupEntry res1 n = some (.file ct) := by
            rw [copy2_lookup_ne ct2 m res _ res1 hc2 n (Ne.symm hmn)]
            exact hlk
          obtain ⟨hsome, res2, hnode, hlk2⟩ := ih res1 n cs ct hndrest hmem2 hlk1
          rw [show syncEntries sf rf ((m, .file ct2) :: rest) (.dir res) =
              ((syncEntries sf rf rest (.dir res1)).1,
               [Event.copyFile (joinPath sf m) (joinPath rf m)] ++
                 (syncEntries sf rf rest (.dir res1)).2.1,
               (syncEntries sf rf rest (.dir res1)).2.2)
            from by simp [syncEntries, hc2]]
          exact ⟨hsome, res2, hnode, hlk2⟩
      | dir cs2 =>
        rcases hre : (syncCore (joinPath sf m) (joinPath rf m) (.dir cs2)
            (lookupEntry res m)).err with _ | e2
        · -- recursive call succeeded; continue with the updated listing
          have hlk1 : lookupEntry (setEntry res m
              (match (syncCore (joinPath sf m) (joinPath rf m) (.dir cs2)
                  (lookupEntry res m)).replica with
                | some t => t
                | none => FSNode.dir [])) n = some (.file ct) := by
            rw [lookupEntry_setEntry_ne res m n _ (Ne.symm hmn)]
            exact hlk
          obtain ⟨hsome, res2, hnode, hlk2⟩ := ih _ n cs ct hndrest hmem2 hlk1
          rw [show syncEntries sf rf ((m, .dir cs2) :: rest) (.dir res) =
              ((syncEntries sf rf rest (.dir (setEntry res m
                 (match (syncCore (joinPath sf m) (joinPath rf m) (.dir cs2)
                     (lookupEntry res m)).replica with
                   | some t => t
                   | none => FSNode.dir [])))).1,
               (syncCore (joinPath sf m) (joinPath rf m) (.dir cs2)
                  (lookupEntry res m)).events ++
                 (syncEntries sf rf rest (.dir (setEntry res m
                   (match (syncCore (joinPath sf m) (joinPath rf m) (.dir cs2)
                       (lookupEntry res m)).replica with
                     | some t => t
                     | none => FSNode.dir [])))).2.1,
               (syncEntries sf rf rest (.dir (setEntry res m
                 (match (syncCore (joinPath sf m) (joinPath rf m) (.dir cs2)
                     (lookupEntry res m)).replica with
                   | some t => t
                   | none => FSNode.dir [])))).2.2)
            from by simp [syncEntries, hre]]
          exact ⟨hsome, res2, hnode, hlk2⟩
        · rw [show syncEntries sf rf ((m, .dir cs2) :: rest) (.dir res) =
              (.dir (setEntry res m
                 (match (syncCore (joinPath sf m) (joinPath rf m) (.dir cs2)
                     (lookupEntry res m)).replica with
                   | some t => t
                   | none => FSNode.dir [])),
               (syncCore (joinPath sf m) (joinPath rf m) (.dir cs2)
                  (lookupEntry res m)).events, some e2)
            from by simp [syncEntries, hre]]
          refine ⟨rfl, _, rfl, ?_⟩
          rw [lookupEntry_setEntry_ne res m n _ (Ne.symm hmn)]
          exact hlk

/-! ### Counting deletion events -/

theorem goodName_of_memKeys (l : List (String × FSNode)) (m : String)
    (hwf : wfList l = true) (hm : m ∈ l.map Prod.fst) : goodName m = true := by
  obtain ⟨p, hp, rfl⟩ := List.mem_map.mp hm
  rw [wfList_iff] at hwf
  exact (hwf p hp).1

theorem removeDir_notMem_removeEvents (rf : String) (S : List String)
    (res : List (String × FSNode)) (n : String) (hn : n ∉ res.map Prod.fst) :
    Event.removeDir (joinPath rf n) ∉ removeEvents rf S res := by
  intro hmem
  obtain ⟨p, hp, _, heq⟩ := (mem_removeEvents rf S res _).mp hmem
  rcases hv : p.2 with ct | d
  · rw [entryRemoveEvent, hv] at heq
    cases heq
  · rw [entryRemoveEvent, hv] at heq
    have hpn : p.1 = n := by
      injection heq with h2
      exact ((joinPath_right_inj rf n p.1).mp h2).symm
    exact hn (hpn ▸ List.mem_map.mpr ⟨p, hp, rfl⟩)

theorem count_removeEvents_one (rf : String) (S : List String) :
    ∀ (res : List (String × FSNode)) (n : String) (d : List (String × FSNode)),
      nodupKeys res = true → lookupEntry res n = some (.dir d) →
      S.contains n = false →
      (removeEvents rf S res).count (.removeDir (joinPath rf n)) = 1 := by
  intro res
  induction res with
  | nil =>
    intro n d _ hlk _
    simp [lookupEntry] at hlk
  | cons p rest ih =>
    obtain ⟨m, w⟩ := p
    intro n d hnd hlk hS
    simp only [nodupKeys, Bool.and_eq_true, Bool.not_eq_true'] at hnd
    obtain ⟨hmcont, hndrest⟩ := hnd
    by_cases hmn : m = n
    · subst hmn
      rw [lookupEntry] at hlk
      rw [if_pos rfl] at hlk
      have hw : w = FSNode.dir d := by
        cases hlk
        rfl
      subst hw
      have hre : removeEvents rf S ((m, FSNode.dir d) :: rest) =
          .removeDir (joinPath rf m) :: removeEvents rf S rest := by
        rw [removeEvents, List.filterMap_cons, removeEvents]
        rw [show (if S.contains (m, FSNode.dir d).1 then none
            else some (entryRemoveEvent rf (m, FSNode.dir d))) =
          some (.removeDir (joinPath rf m)) from by
            rw [if_neg (by rw [hS]; exact Bool.false_ne_true)]
            rfl]
      rw [hre, List.count_cons_self]
      have hnotin : m ∉ rest.map Prod.fst := by
        intro h
        rw [(strContains_iff _ _).mpr h] at hmcont
        cases hmcont
      rw [List.count_eq_zero.mpr (removeDir_notMem_removeEvents rf S rest m hnotin)]
    · rw [lookupEntry, if_neg hmn] at hlk
      have hcount := ih n d hndrest hlk hS
      by_cases hSm : S.contains m
      · have hre : removeEvents rf S ((m, w) :: rest) = removeEvents rf S rest := by
          rw [removeEvents, List.filterMap_cons, removeEvents,
            show (if S.contains (m, w).1 then none
              else some (entryRemoveEvent rf (m, w))) = none from if_pos hSm]
        rw [hre, hcount]
      · have hre : removeEvents rf S ((m, w) :: rest) =
            entryRemoveEvent rf (m, w) :: removeEvents rf S rest := by
          rw [removeEvents, List.filterMap_cons, removeEvents,
            show (if S.contains (m, w).1 then none
              else some (entryRemoveEvent rf (m, w))) =
            some (entryRemoveEvent rf (m, w)) from if_neg hSm]
        rw [hre, List.count_cons_of_ne ?_ _, hcount]
        intro heq
        rcases hv : w with ct | d2 <;> rw [entryRemoveEvent, hv] at heq
        · cases heq
        · injection heq with h2
          exact hmn ((joinPath_right_inj rf n m).mp h2).symm

/-! ### Ordering of events within a trace -/

theorem pair_sublist {α : Type} (a b : α) (l1 l2 l3 : List α)
    (ha : a ∈ l2) (hb : b ∈ l3) : List.Sublist [a, b] (l1 ++ l2 ++ l3) := by
  obtain ⟨x, y, rfl⟩ := List.append_of_mem ha
  have h1 : List.Sublist [a, b] (a :: (y ++ l3)) :=
    List.Sublist.cons₂ a (List.singleton_sublist.mpr (List.mem_append_right y hb))
  have h2 : List.Sublist (a :: (y ++ l3)) ((l1 ++ x) ++ (a :: (y ++ l3))) :=
    List.sublist_append_right _ _
  have h3 : (l1 ++ x) ++ (a :: (y ++ l3)) = l1 ++ (x ++ a :: y) ++ l3 := by
    simp [List.append_assoc]
  exact h1.trans (h3 ▸ h2)

/-! ## The claims -/

/-- C2: calling `sync_folders` with a nonexistent source folder applies no
filesystem mutation at any level (the replica argument is returned
untouched and nothing is recursed into), produces exactly one logged
event, which is an error line, and returns normally (no exception
propagates). -/
theorem claim_C2 (source_folder replica_folder : String) (replica : Option FSNode) :
    sync_folders source_folder replica_folder none replica =
      { replica := replica,
        events := [.errorLog ("Source folder '" ++ source_folder ++ "' does not exist.")],
        err := none } := rfl

/-- C10: `setup_logging` succeeds exactly when the log path has a
nonempty parent directory component; on a bare filename
(`os.path.dirname` returns the empty string, which never exists, so
`os.makedirs("")` is attempted) it raises `FileNotFoundError` before
applying any logging configuration step. -/
theorem claim_C10 (ex : String → Bool) (log_file : String) :
    ((setup_logging ex log_file).2 = none ↔ dirname log_file ≠ "") ∧
    (dirname log_file = "" →
      setup_logging ex log_file = ([], some (.fileNotFound ""))) := by
  by_cases hd : dirname log_file = ""
  · have h1 : setup_logging ex log_file = ([], some (.fileNotFound "")) := by
      simp only [setup_logging, hd]
      rw [show pathExists ex "" = false from by rw [pathExists]; simp]
      simp
    refine ⟨?_, fun _ => h1⟩
    rw [h1]
    simp [hd]
  · have h1 : (setup_logging ex log_file).2 = none := by
      simp only [setup_logging]
      by_cases hex : pathExists ex (dirname log_file)
      · rw [if_pos hex]
        rfl
      · rw [if_neg hex, if_neg hd]
        rfl
    exact ⟨⟨fun _ => hd, fun _ => h1⟩, fun h => absurd h hd⟩

/-- Witness for C10 at concrete inputs: a bare filename fails before any
configuration step; a path with a parent directory succeeds. -/
theorem claim_C10_witness :
    setup_logging (fun _ => false) "sync.log" = ([], some (.fileNotFound "")) ∧
    (setup_logging (fun _ => true) "logs/sync.log").2 = none :=
  ⟨(claim_C10 (fun _ => false) "sync.log").2 rfl,
   ((claim_C10 (fun _ => true) "logs/sync.log").1).mpr (by decide)⟩

/-- C4 counterexample: with a zero (or negative) interval argument the
program performs no configuration check: argparse accepts it, logging is
set up, and the scheduler loop is entered — the Mirror Engine is invoked
(tick 0) with the non-positive interval, and no error is reported. -/
theorem claim_C4_counterexample :
    pymain (fun _ => true) "src" "dst" "logs/app.log" "0" = .entersLoop 0 ∧
    pymain (fun _ => true) "src" "dst" "logs/app.log" "-7" = .entersLoop (-7) :=
  ⟨rfl, rfl⟩

/-- C4 (amended): the program never validates the interval value.  Any
argument that parses as an integer — zero and negative values included —
is passed through to the scheduling loop unchanged, and the Mirror
Engine is invoked with it; only a non-integer argument stops the program
(argparse usage exit) before the loop. -/
theorem claim_C4_amended (ex : String → Bool) (a1 a2 a3 a4 : String) (iv : Int)
    (hparse : parseIntArg a4 = some iv)
    (hlog : (setup_logging ex a3).2 = none) :
    pymain ex a1 a2 a3 a4 = .entersLoop iv := by
  simp only [pymain, hparse, hlog]

/-- Witness for the amended C4 at a concrete input. -/
theorem claim_C4_witness :
    pymain (fun _ => true) "s" "r" "logs/x.log" "60" = .entersLoop 60 :=
  claim_C4_amended (fun _ => true) "s" "r" "logs/x.log" "60" 60 rfl rfl

/-- C5 counterexample: with interval 5 and a tick that takes 3 seconds,
tick 1 starts at time 8 = completion + interval, not at time 5 =
previous tick start + interval as the claim states: `sc.enter` is called
only after `sync_folders` returns. -/
theorem claim_C5_counterexample :
    tickStart (fun _ => 3) 5 1 = 8 ∧
    tickStart (fun _ => 3) 5 1 ≠ tickStart (fun _ => 3) 5 0 + 5 := by
  constructor
  · rfl
  · decide

/-- C5 (amended): each next tick is scheduled `interval` seconds after
the previous tick's completion (`periodic_sync` calls `sc.enter` after
`sync_folders` returns), so consecutive tick starts are separated by the
tick's duration plus the interval; a negative interval schedules into
the past and the scheduler then fires the tick immediately at
completion — the sleep is never negative. -/
theorem claim_C5_amended (ds : Nat → Nat) (iv : Int) (k : Nat) :
    tickStart ds iv (k + 1) = tickStart ds iv k + (ds k : Int) + max iv 0 := by
  simp only [tickStart, schedState]
  rcases le_total iv 0 with h | h
  · rw [max_eq_left (by omega), max_eq_right h]
    omega
  · rw [max_eq_right (by omega), max_eq_left h]

/-- C1 counterexample: a source containing file `a` and a replica
containing an (empty) directory `a` of the same name.  Every filesystem
operation succeeds and the call completes, yet the replica is not
structurally equal to the source: `shutil.copy2` copied the file *into*
the same-named replica directory (path `a/a`), the directory was never
replaced, and the deletion pass (matching by name only) kept it. -/
theorem claim_C1_counterexample :
    (sync_folders "s" "r" (some (.dir [("a", .file "hi")]))
        (some (.dir [("a", .dir [])]))).err = none ∧
    (sync_folders "s" "r" (some (.dir [("a", .file "hi")]))
        (some (.dir [("a", .dir [])]))).replica =
      some (.dir [("a", .dir [("a", .file "hi")])]) ∧
    equivB (.dir [("a", .file "hi")]) (.dir [("a", .dir [("a", .file "hi")])]) = false :=
  ⟨rfl, rfl, rfl⟩

/-- C1 (amended): for every well-formed source tree and well-formed
replica state that is type-compatible with it (no replica directory
where the source has a same-named file and vice versa at any level), one
`sync_folders` call completes without error and the replica tree
afterwards structurally equals the source tree: same relative paths,
equal file contents, and nothing extra. -/
theorem claim_C1_amended (sf rf : String) (src : FSNode) (ses : List (String × FSNode))
    (replica : Option FSNode)
    (hsrc : src = .dir ses)
    (hwf : wfB src = true) (hwr : wfOpt replica = true)
    (hcompat : compatB src replica = true) :
    (sync_folders sf rf (some src) replica).err = none ∧
    ∃ fin, (sync_folders sf rf (some src) replica).replica = some (.dir fin) ∧
      wfB (.dir fin) = true ∧ equivB src (.dir fin) = true := by
  subst hsrc
  exact syncOk_all (.dir ses) sf rf replica hwf hwr hcompat rfl

/-- Witness for the amended C1: syncing a two-level source into an
absent replica. -/
theorem claim_C1_witness :
    (sync_folders "s" "r"
        (some (.dir [("a", .file "hi"), ("sub", .dir [("b", .file "yo")])])) none).err
      = none ∧
    ∃ fin, (sync_folders "s" "r"
        (some (.dir [("a", .file "hi"), ("sub", .dir [("b", .file "yo")])])) none).replica
        = some (.dir fin) ∧
      wfB (.dir fin) = true ∧
      equivB (.dir [("a", .file "hi"), ("sub", .dir [("b", .file "yo")])]) (.dir fin)
        = true :=
  claim_C1_amended "s" "r" _ _ none rfl rfl rfl rfl

/-- C6: if a first `sync_folders` run on a well-formed source tree
completes, then a second run with the unchanged source leaves the
replica tree exactly as the first run left it, completes as well, and
every event it logs is a `copy-file` line — in particular it emits zero
`create-dir`, `remove-file` and `remove-dir` events (file copies still
physically overwrite with identical content). -/
theorem claim_C6 (sf rf : String) (src : FSNode) (ses : List (String × FSNode))
    (replica : Option FSNode)
    (hsrc : src = .dir ses) (hwf : wfB src = true) (hwr : wfOpt replica = true)
    (hdone : (sync_folders sf rf (some src) replica).err = none) :
    ∃ t, (sync_folders sf rf (some src) replica).replica = some t ∧
      (sync_folders sf rf (some src) (some t)).replica = some t ∧
      (sync_folders sf rf (some src) (some t)).err = none ∧
      ∀ e ∈ (sync_folders sf rf (some src) (some t)).events,
        ∃ a b, e = Event.copyFile a b := by
  subst hsrc
  obtain ⟨fin, hrep, hwfin, hsync⟩ :=
    syncedAfter_all (.dir ses) sf rf replica hwf hwr rfl hdone
  obtain ⟨f_rep, f_err, f_evt⟩ := syncFix_all (.dir ses) sf rf fin hwf hwfin rfl hsync
  exact ⟨.dir fin, hrep, f_rep, f_err, f_evt⟩

/-- Witness for C6: source `{a.txt: "hi"}` into an initially absent
replica; the second run leaves it unchanged with copy-only events. -/
theorem claim_C6_witness :
    ∃ t, (sync_folders "s" "r" (some (.dir [("a.txt", .file "hi")])) none).replica
        = some t ∧
      (sync_folders "s" "r" (some (.dir [("a.txt", .file "hi")])) (some t)).replica
        = some t ∧
      (sync_folders "s" "r" (some (.dir [("a.txt", .file "hi")])) (some t)).err = none ∧
      ∀ e ∈ (sync_folders "s" "r" (some (.dir [("a.txt", .file "hi")])) (some t)).events,
        ∃ a b, e = Event.copyFile a b :=
  claim_C6 "s" "r" _ _ none rfl rfl rfl rfl

/-- C9: same-named entries of different type are not reconciled.
Part 1: if the source has file `n` and the replica has a directory `n`,
a completed call leaves a directory at `n` in the replica (the file was
copied into it, the directory was not replaced, and the name-based
deletion pass kept it), so the convergence invariant fails at `n`.
Part 2: if the source has directory `n` and the replica has file `n`,
the call raises an unhandled exception and the replica file at `n` is
still there when it propagates. -/
theorem claim_C9 :
    (∀ (sf rf : String) (ses res : List (String × FSNode)) (n ct : String)
        (d : List (String × FSNode)),
      wfB (.dir ses) = true → wfB (.dir res) = true →
      (n, FSNode.file ct) ∈ ses → lookupEntry res n = some (.dir d) →
      (sync_folders sf rf (some (.dir ses)) (some (.dir res))).err = none →
      ∃ fin d2,
        (sync_folders sf rf (some (.dir ses)) (some (.dir res))).replica
          = some (.dir fin) ∧
        lookupEntry fin n = some (.dir d2) ∧
        equivB (FSNode.file ct) (.dir d2) = false) ∧
    (∀ (sf rf : String) (ses res : List (String × FSNode)) (n : String)
        (cs : List (String × FSNode)) (ct : String),
      nodupKeys ses = true →
      (n, FSNode.dir cs) ∈ ses → lookupEntry res n = some (.file ct) →
      (sync_folders sf rf (some (.dir ses)) (some (.dir res))).err.isSome = true ∧
      ∃ res2,
        (sync_folders sf rf (some (.dir ses)) (some (.dir res))).replica
          = some (.dir res2) ∧
        lookupEntry res2 n = some (.file ct)) := by
  constructor
  · intro sf rf ses res n ct d hwfs hwfr hmem hlk hdone
    rw [wfB_dir_iff] at hwfs hwfr
    have hE : (syncEntries sf rf ses (.dir res)).2.2 = none :=
      syncCore_dir_done sf rf ses (some (.dir res)) hdone
    obtain ⟨res2, e_node, e_nd, e_wf, e_sync, e_unch, e_dir⟩ :=
      syncEntries_synced sf rf ses res (fun p _ => syncedAfter_all p.2)
        hwfs.2 hwfs.1 hwfr.1 hwfr.2 hE
    have hcore : syncCore sf rf (.dir ses) (some (.dir res)) =
        { replica := some (.dir ((res2.filter (fun p => (ses.map Prod.fst).contains p.1)))),
          events := [] ++ (syncEntries sf rf ses (.dir res)).2.1 ++
            removeEvents rf (ses.map Prod.fst) res2,
          err := none } := by
      simp only [syncCore, hE, e_node]
      rw [removeLoop_char rf (ses.map Prod.fst) res2 e_nd]
    have hlk2 : lookupEntry res2 n = some (.dir (setEntry d n (.file ct))) :=
      e_dir n ct d hmem hlk
    refine ⟨res2.filter (fun p => (ses.map Prod.fst).contains p.1),
      setEntry d n (.file ct), ?_, ?_, rfl⟩
    · rw [show sync_folders sf rf (some (.dir ses)) (some (.dir res)) =
          syncCore sf rf (.dir ses) (some (.dir res)) from rfl, hcore]
    · exact lookupEntry_filter_keep res2 _ n _ e_nd hlk2
        ((strContains_iff _ _).mpr (List.mem_map.mpr ⟨(n, FSNode.file ct), hmem, rfl⟩))
  · intro sf rf ses res n cs ct hnd hmem hlk
    obtain ⟨hsome, res2, hnode, hlk2⟩ :=
      syncEntries_mismatch_dirfile sf rf ses res n cs ct hnd hmem hlk
    rcases hE : (syncEntries sf rf ses (.dir res)).2.2 with _ | e
    · rw [hE] at hsome
      cases hsome
    · have hcore : syncCore sf rf (.dir ses) (some (.dir res)) =
          { replica := some (syncEntries sf rf ses (.dir res)).1,
            events := [] ++ (syncEntries sf rf ses (.dir res)).2.1,
            err := some e } := by
        simp only [syncCore, hE]
      constructor
      · rw [show sync_folders sf rf (some (.dir ses)) (some (.dir res)) =
            syncCore sf rf (.dir ses) (some (.dir res)) from rfl, hcore]
        rfl
      · refine ⟨res2, ?_, hlk2⟩
        rw [show sync_folders sf rf (some (.dir ses)) (some (.dir res)) =
            syncCore sf rf (.dir ses) (some (.dir res)) from rfl, hcore]
        rw [hnode]

/-- Witness for C9 at concrete inputs: both mismatch directions. -/
theorem claim_C9_witness :
    (∃ fin d2,
      (sync_folders "s" "r" (some (.dir [("a", .file "hi")]))
          (some (.dir [("a", .dir [])]))).replica = some (.dir fin) ∧
      lookupEntry fin "a" = some (.dir d2) ∧
      equivB (FSNode.file "hi") (.dir d2) = false) ∧
    ((sync_folders "s" "r" (some (.dir [("a", .dir [])]))
        (some (.dir [("a", .file "x")]))).err.isSome = true ∧
     ∃ res2,
       (sync_folders "s" "r" (some (.dir [("a", .dir [])]))
           (some (.dir [("a", .file "x")]))).replica = some (.dir res2) ∧
       lookupEntry res2 "a" = some (.file "x")) :=
  ⟨claim_C9.1 "s" "r" [("a", .file "hi")] [("a", .dir [])] "a" "hi" []
      rfl rfl (List.mem_singleton.mpr rfl) rfl rfl,
   claim_C9.2 "s" "r" [("a", .dir [])] [("a", .file "x")] "a" [] "x"
      rfl (List.mem_singleton.mpr rfl) rfl⟩

/-- C3 counterexample: source `{a: "x", b: "y"}`, replica where `a` is a
directory whose inner entry `a` is itself a directory, so the copy of
`a` fails (`IsADirectoryError` from `shutil.copy2`).  The call logs no
error event (the event list is empty), does not copy the sibling `b`,
and propagates the exception — contradicting "logs exactly one error
SyncEvent for that entry and continues processing the remaining sibling
entries". -/
theorem claim_C3_counterexample :
    sync_folders "s" "r"
        (some (.dir [("a", .file "x"), ("b", .file "y")]))
        (some (.dir [("a", .dir [("a", .dir [])])])) =
      { replica := some (.dir [("a", .dir [("a", .dir [])])]),
        events := [],
        err := some (.isADirectory "r/a/a") } ∧
    Event.copyFile "s/b" "r/b" ∉ ([] : List Event) ∧
    (∀ m, Event.errorLog m ∉ ([] : List Event)) :=
  ⟨rfl, by simp, by simp⟩

/-- C3 (amended): a per-entry copy or removal failure is not logged and
does not isolate to the entry.  A `sync_folders` call on an existing
source never emits an `error` SyncEvent at all (the only error line in
the program is the missing-source one), and when processing of an entry
raises, the copy loop aborts: the call's result is exactly that of the
call with all the remaining sibling entries absent, and the exception
propagates out of `sync_folders`. -/
theorem claim_C3_amended :
    (∀ (sf rf : String) (src : FSNode) (repl : Option FSNode) (e : Event),
      e ∈ (sync_folders sf rf (some src) repl).events → ∀ m, e ≠ .errorLog m) ∧
    (∀ (sf rf n : String) (c : FSNode) (rest : List (String × FSNode)) (r1 : FSNode),
      (syncEntries sf rf [(n, c)] r1).2.2.isSome = true →
      syncEntries sf rf ((n, c) :: rest) r1 = syncEntries sf rf [(n, c)] r1) := by
  constructor
  · intro sf rf src repl e he m
    exact ((eventsTame_all src) sf rf repl e he).1 m
  · exact fun sf rf n c rest r1 h => syncEntries_abort sf rf n c rest r1 h

/-- Witness for the amended C3 at concrete inputs: a createDir event of a
real run is not an error line, and a failing first entry makes the loop
ignore its sibling. -/
theorem claim_C3_witness :
    (∀ m, Event.createDir "r" ≠ Event.errorLog m) ∧
    syncEntries "s" "r" [("a", .file "x"), ("b", .file "y")] (.file "z") =
      syncEntries "s" "r" [("a", .file "x")] (.file "z") :=
  ⟨claim_C3_amended.1 "s" "r" (.dir [("k", .file "v")]) none (Event.createDir "r")
      (by decide),
   claim_C3_amended.2 "s" "r" "a" (.file "x") [("b", .file "y")] (.file "z") rfl⟩

/-- C7: an extra replica subdirectory (arbitrary nested content) whose
name is absent from the source listing is removed entirely by one
completed call, with exactly one `remove-dir` event for the top of that
subtree and no remove event for any path below it. -/
theorem claim_C7 (sf rf : String) (ses res : List (String × FSNode))
    (name : String) (sub : List (String × FSNode))
    (hwfs : wfB (.dir ses) = true) (hwfr : wfB (.dir res) = true)
    (hcompat : compatList ses res = true)
    (hmem : (name, FSNode.dir sub) ∈ res)
    (hnot : name ∉ ses.map Prod.fst) :
    (sync_folders sf rf (some (.dir ses)) (some (.dir res))).err = none ∧
    (∃ fin, (sync_folders sf rf (some (.dir ses)) (some (.dir res))).replica
        = some (.dir fin) ∧ lookupEntry fin name = none) ∧
    (sync_folders sf rf (some (.dir ses)) (some (.dir res))).events.count
      (.removeDir (joinPath rf name)) = 1 ∧
    (∀ q, Event.removeDir (joinPath (joinPath rf name) q) ∉
        (sync_folders sf rf (some (.dir ses)) (some (.dir res))).events ∧
      Event.removeFile (joinPath (joinPath rf name) q) ∉
        (sync_folders sf rf (some (.dir ses)) (some (.dir res))).events) := by
  have hwfs2 := hwfs
  have hwfr2 := hwfr
  rw [wfB_dir_iff] at hwfs2 hwfr2
  obtain ⟨hnds, hwls⟩ := hwfs2
  obtain ⟨hndr, hwlr⟩ := hwfr2
  obtain ⟨res2, e_node, e_err, e_nd, e_wf, e_look, e_unch, e_evt⟩ :=
    syncEntries_ok sf rf ses res (fun p _ => syncOk_all p.2) hwls hnds hndr hwlr hcompat
  have hcore : syncCore sf rf (.dir ses) (some (.dir res)) =
      { replica := some (.dir ((res2.filter (fun p => (ses.map Prod.fst).contains p.1)))),
        events := [] ++ (syncEntries sf rf ses (.dir res)).2.1 ++
          removeEvents rf (ses.map Prod.fst) res2,
        err := none } := by
    simp only [syncCore, e_err, e_node]
    rw [removeLoop_char rf (ses.map Prod.fst) res2 e_nd]
  have hsf : sync_folders sf rf (some (.dir ses)) (some (.dir res)) =
      syncCore sf rf (.dir ses) (some (.dir res)) := rfl
  have herr : (sync_folders sf rf (some (.dir ses)) (some (.dir res))).err = none := by
    rw [hsf, hcore]
  have hrepl : (sync_folders sf rf (some (.dir ses)) (some (.dir res))).replica =
      some (.dir (res2.filter (fun p => (ses.map Prod.fst).contains p.1))) := by
    rw [hsf, hcore]
  have hev : (sync_folders sf rf (some (.dir ses)) (some (.dir res))).events =
      (syncEntries sf rf ses (.dir res)).2.1 ++
        removeEvents rf (ses.map Prod.fst) res2 := by
    rw [hsf, hcore]
    simp
  have hgname : goodName name = true :=
    goodName_of_memKeys res name hwlr (List.mem_map.mpr ⟨(name, FSNode.dir sub), hmem, rfl⟩)
  have hlkres : lookupEntry res name = some (.dir sub) :=
    lookupEntry_of_mem_nodup res name _ hndr hmem
  have hlk2 : lookupEntry res2 name = some (.dir sub) := by
    rw [e_unch name hnot]
    exact hlkres
  have hScont : (ses.map Prod.fst).contains name = false := by
    rcases hb : (ses.map Prod.fst).contains name
    · rfl
    · exact absurd ((strContains_iff _ _).mp hb) hnot
  have hSE := fun e he =>
    syncEntries_events_tame sf rf ses (.dir res) (fun p _ => eventsTame_all p.2) e he
  refine ⟨herr, ?_, ?_, ?_⟩
  · refine ⟨res2.filter (fun p => (ses.map Prod.fst).contains p.1), hrepl, ?_⟩
    rw [lookupEntry_eq_none_iff]
    intro hmm
    obtain ⟨p, hp, hp1⟩ := List.mem_map.mp hmm
    have hPf : (ses.map Prod.fst).contains p.1 = true := (List.mem_filter.mp hp).2
    rw [hp1, hScont] at hPf
    cases hPf
  · rw [hev, List.count_append]
    rw [List.count_eq_zero.mpr ?_,
      count_removeEvents_one rf (ses.map Prod.fst) res2 name sub e_nd hlk2 hScont]
    intro habs
    obtain ⟨_, hrem⟩ := hSE _ habs
    obtain ⟨n2, q2, hn2, hq2⟩ := hrem _ (Or.inl rfl)
    rw [joinPath_assoc] at hq2
    have hne : name = joinPath n2 q2 := (joinPath_right_inj rf name (joinPath n2 q2)).mp hq2
    have hdata : name.data = n2.data ++ ('/' :: q2.data) := by
      rw [hne, joinPath_data]
    exact goodName_not_mem name hgname (by rw [hdata]; simp)
  · intro q
    have hsplit : ∀ e, e ∈ (sync_folders sf rf (some (.dir ses)) (some (.dir res))).events →
        e ∈ (syncEntries sf rf ses (.dir res)).2.1 ∨
        e ∈ removeEvents rf (ses.map Prod.fst) res2 := by
      intro e he
      rw [hev] at he
      exact List.mem_append.mp he
    constructor
    · intro habs
      rcases hsplit _ habs with h1 | h1
      · obtain ⟨_, hrem⟩ := hSE _ h1
        obtain ⟨n2, q2, hn2, hq2⟩ := hrem _ (Or.inl rfl)
        have hd := joinPath_deep_inj rf name n2 q q2 hgname
          (goodName_of_memKeys ses n2 hwls hn2) hq2
        rw [← hd.1] at hn2
        exact hnot hn2
      · obtain ⟨p, hp, _, heq⟩ := (mem_removeEvents _ _ _ _).mp h1
        have hgp : goodName p.1 = true := by
          rw [wfList_iff] at e_wf
          exact (e_wf p hp).1
        rcases hv : p.2 with ct2 | d2 <;> rw [entryRemoveEvent, hv] at heq
        · cases heq
        · injection heq with h2
          exact joinPath_ne_deep rf p.1 name q hgp h2.symm
    · intro habs
      rcases hsplit _ habs with h1 | h1
      · obtain ⟨_, hrem⟩ := hSE _ h1
        obtain ⟨n2, q2, hn2, hq2⟩ := hrem _ (Or.inr rfl)
        have hd := joinPath_deep_inj rf name n2 q q2 hgname
          (goodName_of_memKeys ses n2 hwls hn2) hq2
        rw [← hd.1] at hn2
        exact hnot hn2
      · obtain ⟨p, hp, _, heq⟩ := (mem_removeEvents _ _ _ _).mp h1
        have hgp : goodName p.1 = true := by
          rw [wfList_iff] at e_wf
          exact (e_wf p hp).1
        rcases hv : p.2 with ct2 | d2 <;> rw [entryRemoveEvent, hv] at heq
        · injection heq with h2
          exact joinPath_ne_deep rf p.1 name q hgp h2.symm
        · cases heq

/-- Witness for C7: removing a stale replica directory with two levels
of nested content produces exactly one remove-dir line. -/
theorem claim_C7_witness :
    (sync_folders "s" "r" (some (.dir [("a", .file "hi")]))
        (some (.dir [("stale", .dir [("x", .file "1"), ("deep", .dir [("y", .file "2")])]),
                     ("a", .file "old")]))).err = none ∧
    (∃ fin, (sync_folders "s" "r" (some (.dir [("a", .file "hi")]))
        (some (.dir [("stale", .dir [("x", .file "1"), ("deep", .dir [("y", .file "2")])]),
                     ("a", .file "old")]))).replica
        = some (.dir fin) ∧ lookupEntry fin "stale" = none) ∧
    (sync_folders "s" "r" (some (.dir [("a", .file "hi")]))
        (some (.dir [("stale", .dir [("x", .file "1"), ("deep", .dir [("y", .file "2")])]),
                     ("a", .file "old")]))).events.count
      (.removeDir (joinPath "r" "stale")) = 1 ∧
    (∀ q, Event.removeDir (joinPath (joinPath "r" "stale") q) ∉
        (sync_folders "s" "r" (some (.dir [("a", .file "hi")]))
          (some (.dir [("stale", .dir [("x", .file "1"), ("deep", .dir [("y", .file "2")])]),
                       ("a", .file "old")]))).events ∧
      Event.removeFile (joinPath (joinPath "r" "stale") q) ∉
        (sync_folders "s" "r" (some (.dir [("a", .file "hi")]))
          (some (.dir [("stale", .dir [("x", .file "1"), ("deep", .dir [("y", .file "2")])]),
                       ("a", .file "old")]))).events) :=
  claim_C7 "s" "r" [("a", .file "hi")]
    [("stale", .dir [("x", .file "1"), ("deep", .dir [("y", .file "2")])]),
     ("a", .file "old")]
    "stale" [("x", .file "1"), ("deep", .dir [("y", .file "2")])]
    rfl rfl rfl (List.mem_cons_self _ _) (by decide)

/-- C8: observable content of the listing/ordering discipline.  For a
completed, type-compatible run: (1) the source listing is the
authoritative target set — the replica afterwards has an entry at a name
exactly when that name is in the source listing captured at the start;
(2) copies complete before deletions are decided — in a rename-like
change (new file name added to the source, old name only in the replica)
the trace contains the `copy-file` event of the added name strictly
before the remove event of the dropped name, as an independent add plus
an independent remove. -/
theorem claim_C8 (sf rf : String) (ses res : List (String × FSNode))
    (hwfs : wfB (.dir ses) = true) (hwfr : wfB (.dir res) = true)
    (hcompat : compatList ses res = true) :
    ∃ fin, (sync_folders sf rf (some (.dir ses)) (some (.dir res))).replica
        = some (.dir fin) ∧
      (∀ m, (lookupEntry fin m).isSome = true ↔ m ∈ ses.map Prod.fst) ∧
      (∀ (n_new ct n_old : String) (v_old : FSNode),
        (n_new, FSNode.file ct) ∈ ses → (n_old, v_old) ∈ res →
        n_old ∉ ses.map Prod.fst →
        ∃ ev, (ev = Event.removeDir (joinPath rf n_old) ∨
               ev = Event.removeFile (joinPath rf n_old)) ∧
          List.Sublist
            [Event.copyFile (joinPath sf n_new) (joinPath rf n_new), ev]
            (sync_folders sf rf (some (.dir ses)) (some (.dir res))).events) := by
  have hwfs2 := hwfs
  have hwfr2 := hwfr
  rw [wfB_dir_iff] at hwfs2 hwfr2
  obtain ⟨hnds, hwls⟩ := hwfs2
  obtain ⟨hndr, hwlr⟩ := hwfr2
  obtain ⟨res2, e_node, e_err, e_nd, e_wf, e_look, e_unch, e_evt⟩ :=
    syncEntries_ok sf rf ses res (fun p _ => syncOk_all p.2) hwls hnds hndr hwlr hcompat
  have hcore : syncCore sf rf (.dir ses) (some (.dir res)) =
      { replica := some (.dir ((res2.filter (fun p => (ses.map Prod.fst).contains p.1)))),
        events := [] ++ (syncEntries sf rf ses (.dir res)).2.1 ++
          removeEvents rf (ses.map Prod.fst) res2,
        err := none } := by
    simp only [syncCore, e_err, e_node]
    rw [removeLoop_char rf (ses.map Prod.fst) res2 e_nd]
  have hsf : sync_folders sf rf (some (.dir ses)) (some (.dir res)) =
      syncCore sf rf (.dir ses) (some (.dir res)) := rfl
  have hrepl : (sync_folders sf rf (some (.dir ses)) (some (.dir res))).replica =
      some (.dir (res2.filter (fun p => (ses.map Prod.fst).contains p.1))) := by
    rw [hsf, hcore]
  have hev : (sync_folders sf rf (some (.dir ses)) (some (.dir res))).events =
      ([] : List Event) ++ (syncEntries sf rf ses (.dir res)).2.1 ++
        removeEvents rf (ses.map Prod.fst) res2 := by
    rw [hsf, hcore]
  refine ⟨res2.filter (fun p => (ses.map Prod.fst).contains p.1), hrepl, ?_, ?_⟩
  · intro m
    constructor
    · intro h
      rw [lookupEntry_isSome_iff] at h
      obtain ⟨p, hp, hp1⟩ := List.mem_map.mp h
      have hPf : (ses.map Prod.fst).contains p.1 = true := (List.mem_filter.mp hp).2
      rw [hp1] at hPf
      exact (strContains_iff _ _).mp hPf
    · intro h
      obtain ⟨p, hp, hp1⟩ := List.mem_map.mp h
      obtain ⟨d, hd, _⟩ := e_look p.1 p.2 hp
      rw [← hp1, lookupEntry_filter_keep res2 _ p.1 d e_nd hd
        ((strContains_iff _ _).mpr (List.mem_map.mpr ⟨p, hp, rfl⟩))]
      rfl
  · intro n_new ct n_old v_old hnew hold hnotin
    have hcopy : Event.copyFile (joinPath sf n_new) (joinPath rf n_new) ∈
        (syncEntries sf rf ses (.dir res)).2.1 := e_evt n_new ct hnew
    have hlkold : lookupEntry res n_old = some v_old :=
      lookupEntry_of_mem_nodup res n_old _ hndr hold
    have hlk2 : lookupEntry res2 n_old = some v_old := by
      rw [e_unch n_old hnotin]
      exact hlkold
    have hmem2 : (n_old, v_old) ∈ res2 := mem_of_lookupEntry res2 n_old v_old hlk2
    have hScont : (ses.map Prod.fst).contains n_old = false := by
      rcases hb : (ses.map Prod.fst).contains n_old
      · rfl
      · exact absurd ((strContains_iff _ _).mp hb) hnotin
    have hrm : entryRemoveEvent rf (n_old, v_old) ∈
        removeEvents rf (ses.map Prod.fst) res2 :=
      (mem_removeEvents _ _ _ _).mpr ⟨(n_old, v_old), hmem2, hScont, rfl⟩
    refine ⟨entryRemoveEvent rf (n_old, v_old), ?_, ?_⟩
    · cases v_old with
      | dir d => exact Or.inl rfl
      | file ct2 => exact Or.inr rfl
    · rw [hev]
      exact pair_sublist _ _ [] _ _ hcopy hrm

/-- Witness for C8: a rename-like change (source has `new`, replica has
only `old`). -/
theorem claim_C8_witness :
    ∃ fin, (sync_folders "s" "r" (some (.dir [("new", .file "n")]))
        (some (.dir [("old", .file "o")]))).replica = some (.dir fin) ∧
      (∀ m, (lookupEntry fin m).isSome = true ↔
        m ∈ ([("new", FSNode.file "n")] : List (String × FSNode)).map Prod.fst) ∧
      (∀ (n_new ct n_old : String) (v_old : FSNode),
        (n_new, FSNode.file ct) ∈ ([("new", FSNode.file "n")] : List (String × FSNode)) →
        (n_old, v_old) ∈ ([("old", FSNode.file "o")] : List (String × FSNode)) →
        n_old ∉ ([("new", FSNode.file "n")] : List (String × FSNode)).map Prod.fst →
        ∃ ev, (ev = Event.removeDir (joinPath "r" n_old) ∨
               ev = Event.removeFile (joinPath "r" n_old)) ∧
          List.Sublist
            [Event.copyFile (joinPath "s" n_new) (joinPath "r" n_new), ev]
            (sync_folders "s" "r" (some (.dir [("new", .file "n")]))
              (some (.dir [("old", .file "o")]))).events) :=
  claim_C8 "s" "r" [("new", .file "n")] [("old", .file "o")] rfl rfl rfl
